import Mathlib

/-!
# Verification of the XCSF representation layer

A shallow embedding of the core representation substrates of the XCSF
learning classifier system: the prefix-encoded GP-tree engine (gp.c),
the neural-network layer list (neural.c), layer argument validation
(neural_layer_args.c) and the configuration parser's boolean handling
(config.c).  C ints are modelled as `Int` (or `Nat` where the source
value is provably non-negative), C doubles as `Rat` (the claims under
study concern exact comparisons and structural properties, not
rounding), fatal `exit(EXIT_FAILURE)` calls and undefined behaviour as
`Option.none`, and the random number generator as an explicit stream of
draws passed to each operation.
-/

namespace XCSFVerif

/-! ## GP trees (gp.c)

A GP tree is a flat prefix sequence of node codes (C `int *tree`).
A code `c < 4` is an arithmetic function (`ADD=0, SUB=1, MUL=2, DIV=3`,
arity 2); `4 ≤ c < 4 + GP_NUM_CONS` is a shared constant;
`4 + GP_NUM_CONS ≤ c` is an input variable. -/

/-- `GP_MAX_LEN` from gp.c: maximum length of a GP tree. -/
def GP_MAX_LEN : Nat := 10000

/-- `GP_NUM_FUNC` from gp.c: number of selectable GP functions. -/
def GP_NUM_FUNC : Nat := 4

/-- Well-formed prefix-encoded GP tree: a terminal is a single code
`4 ≤ c`; a function node `0 ≤ c < 4` is followed by exactly two
well-formed sub-trees (fixed arity 2). -/
inductive IsTree : List Int → Prop
  | term (c : Int) (h : 4 ≤ c) : IsTree [c]
  | node (c : Int) (h0 : 0 ≤ c) (h4 : c < 4) (l r : List Int) :
      IsTree l → IsTree r → IsTree (c :: l ++ r)

/-- Fuel-indexed embedding of `tree_traverse` (gp.c lines 47-65).
The C function walks the array from index `p`; we model the suffix of
the code array starting at `p` and return the suffix that remains after
one complete sub-tree has been consumed (C's return value `p'`
corresponds to consuming `p' - p` codes).  `none` models the fatal
`exit` on an invalid function code, reading past the end of the array
(undefined behaviour in C), and fuel exhaustion (the C recursion always
terminates on the inputs of interest; the lemmas below show
`s.length` fuel suffices). -/
def travF : Nat → List Int → Option (List Int)
  | 0, _ => none
  | _ + 1, [] => none
  | fuel + 1, c :: rest =>
    if 4 ≤ c then some rest
    else if 0 ≤ c then
      match travF fuel rest with
      | none => none
      | some r => travF fuel r
    else none

/-- Embedding of `tree_traverse(tree, p)` (gp.c lines 47-65) in the
index form used by `tree_crossover`: returns the position after
traversing the sub-tree rooted at position `p`. -/
def tree_traverse (tree : List Int) (p : Nat) : Option Nat :=
  match travF (tree.length + 1) (tree.drop p) with
  | some r => some (tree.length - r.length)
  | none => none

/-- Traversal fuel is monotone: a successful traversal stays successful
with more fuel. -/
theorem travF_mono {fuel fuel' : Nat} {s r : List Int}
    (h : travF fuel s = some r) (hle : fuel ≤ fuel') :
    travF fuel' s = some r := by
  induction fuel generalizing fuel' s r with
  | zero => simp [travF] at h
  | succ n ih =>
    obtain ⟨m, rfl⟩ : ∃ m, fuel' = m + 1 :=
      ⟨fuel' - 1, by omega⟩
    cases s with
    | nil => simp [travF] at h
    | cons c rest =>
      simp only [travF] at h ⊢
      by_cases h4 : 4 ≤ c
      · simpa [h4] using h
      · by_cases h0 : 0 ≤ c
        · simp only [h4, if_false, h0, if_true] at h ⊢
          cases hrec : travF n rest with
          | none => rw [hrec] at h; exact absurd h (by simp)
          | some r1 =>
            rw [hrec] at h
            rw [ih hrec (by omega)]
            exact ih h (by omega)
        · simp [h4, h0] at h

/-- Completeness of traversal: consuming a well-formed tree from the
front of a list returns exactly the rest, given fuel at least the
tree's length. -/
theorem travF_complete {u : List Int} (hu : IsTree u) :
    ∀ (rest : List Int) (fuel : Nat), u.length ≤ fuel →
      travF fuel (u ++ rest) = some rest := by
  induction hu with
  | term c h =>
    intro rest fuel hf
    obtain ⟨m, rfl⟩ : ∃ m, fuel = m + 1 := ⟨fuel - 1, by simp at hf; omega⟩
    simp [travF, h]
  | node c h0 h4 l r hl hr ihl ihr =>
    intro rest fuel hf
    simp only [List.length_cons, List.length_append] at hf
    obtain ⟨m, rfl⟩ : ∃ m, fuel = m + 1 := ⟨fuel - 1, by omega⟩
    have hc4 : ¬ 4 ≤ c := by omega
    have hassoc : (c :: l ++ r) ++ rest = c :: (l ++ (r ++ rest)) := by simp
    rw [hassoc]
    simp only [travF, hc4, if_false, h0, if_true]
    rw [ihl (r ++ rest) m (by omega)]
    exact ihr rest m (by omega)

/-- Soundness of traversal: a successful traversal consumed a
well-formed tree from the front of the list. -/
theorem travF_sound {fuel : Nat} {s r : List Int}
    (h : travF fuel s = some r) :
    ∃ u, s = u ++ r ∧ IsTree u := by
  induction fuel generalizing s r with
  | zero => simp [travF] at h
  | succ n ih =>
    cases s with
    | nil => simp [travF] at h
    | cons c rest =>
      simp only [travF] at h
      by_cases h4 : 4 ≤ c
      · simp only [h4, if_true, Option.some.injEq] at h
        exact ⟨[c], by simp [h], IsTree.term c h4⟩
      · by_cases h0 : 0 ≤ c
        · simp only [h4, if_false, h0, if_true] at h
          cases hrec : travF n rest with
          | none => rw [hrec] at h; exact absurd h (by simp)
          | some r1 =>
            rw [hrec] at h
            obtain ⟨u1, rfl, hu1⟩ := ih hrec
            obtain ⟨u2, rfl, hu2⟩ := ih h
            refine ⟨c :: u1 ++ u2, by simp, ?_⟩
            exact IsTree.node c h0 (by omega) u1 u2 hu1 hu2
        · simp [h4, h0] at h

/-- A well-formed tree is non-empty. -/
theorem IsTree.ne_nil {u : List Int} (hu : IsTree u) : u ≠ [] := by
  cases hu <;> simp

/-- Prefix-freeness: two well-formed trees reading from the same
stream are equal. -/
theorem IsTree.unique {u v a b : List Int}
    (hu : IsTree u) (hv : IsTree v) (h : u ++ a = v ++ b) : u = v := by
  have key : ∀ n (u v a b : List Int), u.length ≤ n → IsTree u →
      IsTree v → u ++ a = v ++ b → u = v := by
    intro n
    induction n with
    | zero =>
      intro u v a b hn hu _ _
      exact absurd (List.length_eq_zero.mp (by omega)) hu.ne_nil
    | succ m ih =>
      intro u v a b hn hu hv heq
      cases hu with
      | term c hc =>
        cases hv with
        | term d hd =>
          simp only [List.cons_append, List.nil_append, List.cons.injEq] at heq
          rw [heq.1]
        | node d h0 h4 lv rv hlv hrv =>
          simp only [List.cons_append, List.cons.injEq] at heq
          omega
      | node c h0 h4 lu ru hlu hru =>
        cases hv with
        | term d hd =>
          simp only [List.cons_append, List.cons.injEq] at heq
          omega
        | node d h0v h4v lv rv hlv hrv =>
          simp only [List.cons_append, List.cons.injEq, List.append_assoc] at heq
          obtain ⟨rfl, heq2⟩ := heq
          simp only [List.length_cons, List.length_append] at hn
          have hluv : lu = lv := ih lu lv (ru ++ a) (rv ++ b) (by omega) hlu hlv heq2
          subst hluv
          have heq3 : ru ++ a = rv ++ b := List.append_cancel_left heq2
          have : ru = rv := ih ru rv a b (by omega) hru hrv heq3
          rw [this]
  exact key u.length u v a b le_rfl hu hv h

/-- Every position inside a well-formed tree starts a well-formed
sub-tree (the prefix encoding makes every sub-tree a contiguous
range). -/
theorem IsTree.subtree_at {t : List Int} (ht : IsTree t) :
    ∀ q < t.length, ∃ u rest, t.drop q = u ++ rest ∧ IsTree u := by
  induction ht with
  | term c h =>
    intro q hq
    simp only [List.length_cons, List.length_nil] at hq
    interval_cases q
    exact ⟨[c], [], by simp, IsTree.term c h⟩
  | node c h0 h4 l r hl hr ihl ihr =>
    intro q hq
    cases q with
    | zero =>
      exact ⟨c :: l ++ r, [], by simp, IsTree.node c h0 h4 l r hl hr⟩
    | succ qq =>
      simp only [List.length_cons, List.length_append] at hq
      have hdrop : (c :: l ++ r).drop (qq + 1) = (l ++ r).drop qq := by
        simp [List.drop_succ_cons]
      by_cases hql : qq < l.length
      · obtain ⟨u, rest, hu1, hu2⟩ := ihl qq hql
        refine ⟨u, rest ++ r, ?_, hu2⟩
        rw [hdrop, List.drop_append_eq_append_drop, hu1,
            Nat.sub_eq_zero_of_le (le_of_lt hql), List.drop_zero,
            List.append_assoc]
      · obtain ⟨u, rest, hu1, hu2⟩ := ihr (qq - l.length) (by omega)
        refine ⟨u, rest, ?_, hu2⟩
        rw [hdrop, List.drop_append_eq_append_drop,
            List.drop_eq_nil_of_le (by omega), List.nil_append, hu1]

/-- Sub-tree replacement: splicing a well-formed tree in place of a
well-formed sub-tree of a well-formed tree yields a well-formed
tree.  This is why `tree_crossover`'s splice always produces a valid
prefix encoding. -/
theorem IsTree.replace {u u' : List Int} (hu : IsTree u) (hu' : IsTree u') :
    ∀ {t : List Int}, IsTree t → ∀ {pre suf : List Int},
      t = pre ++ u ++ suf → IsTree (pre ++ u' ++ suf) := by
  intro t ht
  induction ht with
  | term c h =>
    intro pre suf heq
    have hlen := congrArg List.length heq
    simp only [List.length_cons, List.length_nil, List.length_append] at hlen
    have hune : u.length ≠ 0 :=
      fun h0 => hu.ne_nil (List.length_eq_zero.mp h0)
    have hpre : pre = [] := List.length_eq_zero.mp (by omega)
    have hsuf : suf = [] := List.length_eq_zero.mp (by omega)
    subst hpre; subst hsuf
    simpa using hu'
  | node c h0 h4 l r hl hr ihl ihr =>
    intro pre suf heq
    cases pre with
    | nil =>
      simp only [List.nil_append] at heq ⊢
      have heq' : u ++ suf = (c :: l ++ r) ++ [] := by
        rw [List.append_nil]; exact heq.symm
      have huniq : u = c :: l ++ r :=
        hu.unique (IsTree.node c h0 h4 l r hl hr) heq'
      have hsuf : suf = [] := by
        have := congrArg List.length heq
        rw [huniq] at this
        simp only [List.length_cons, List.length_append] at this
        exact List.length_eq_zero.mp (by omega)
      subst hsuf
      simpa using hu'
    | cons p pre' =>
      simp only [List.cons_append, List.append_assoc, List.cons.injEq] at heq
      obtain ⟨rfl, hconc⟩ := heq
      -- hconc : l ++ r = pre' ++ (u ++ suf)
      by_cases hcase : pre'.length < l.length
      · -- the replaced sub-tree lies inside the first child l
        have hL : List.drop pre'.length (l ++ r) = l.drop pre'.length ++ r := by
          rw [List.drop_append_eq_append_drop,
              Nat.sub_eq_zero_of_le (le_of_lt hcase), List.drop_zero]
        have hR : List.drop pre'.length (pre' ++ (u ++ suf)) = u ++ suf :=
          List.drop_left pre' (u ++ suf)
        have hdrop : u ++ suf = l.drop pre'.length ++ r :=
          ((hL.symm.trans (congrArg (List.drop pre'.length) hconc)).trans hR).symm
        have hT : List.take pre'.length (l ++ r) = l.take pre'.length :=
          List.take_append_of_le_length (le_of_lt hcase)
        have hTR : List.take pre'.length (pre' ++ (u ++ suf)) = pre' :=
          List.take_left pre' (u ++ suf)
        have htake : pre' = l.take pre'.length :=
          (((congrArg (List.take pre'.length) hconc).trans hTR).symm.trans hT :)
        obtain ⟨u0, r0, hu0eq, hu0⟩ := hl.subtree_at pre'.length hcase
        have huu0 : u = u0 := hu.unique hu0 (by rw [hdrop, hu0eq, List.append_assoc])
        subst huu0
        have hsuf : suf = r0 ++ r :=
          List.append_cancel_left (by rw [hdrop, hu0eq, List.append_assoc])
        have hldec : l = pre' ++ u ++ r0 := by
          conv_lhs => rw [← List.take_append_drop pre'.length l]
          rw [hu0eq, ← htake, ← List.append_assoc]
        have hrepl := ihl hldec
        have hgoal : (c :: pre') ++ u' ++ suf = c :: (pre' ++ u' ++ r0) ++ r := by
          rw [hsuf]; simp [List.append_assoc]
        rw [hgoal]
        exact IsTree.node c h0 h4 _ r hrepl hr
      · -- the replaced sub-tree lies inside the second child r
        have hltake : l = pre'.take l.length := by
          have h1 := congrArg (List.take l.length) hconc
          rw [List.take_left, List.take_append_of_le_length (by omega)] at h1
          exact h1
        have hrdec : r = pre'.drop l.length ++ u ++ suf := by
          have h1 := congrArg (List.drop l.length) hconc
          rw [List.drop_left, List.drop_append_eq_append_drop,
              Nat.sub_eq_zero_of_le (by omega), List.drop_zero] at h1
          rw [h1, List.append_assoc]
        have hrepl := ihr hrdec
        have hpre'dec : pre' = l ++ pre'.drop l.length := by
          conv_lhs => rw [← List.take_append_drop l.length pre', ← hltake]
        have hgoal : (c :: pre') ++ u' ++ suf
            = c :: l ++ (pre'.drop l.length ++ u' ++ suf) := by
          conv_lhs => rw [hpre'dec]
          simp [List.append_assoc]
        rw [hgoal]
        exact IsTree.node c h0 h4 l _ hl hrepl

/-- Traversal at a position inside a well-formed tree: the sub-tree at
position `q` is a contiguous range `q ..< q + u.length` and
`tree_traverse` returns its end, with the expected take/drop
decompositions of the code array. -/
theorem tree_traverse_subtree {t : List Int} (ht : IsTree t)
    {q : Nat} (hq : q < t.length) :
    ∃ u rest, t.drop q = u ++ rest ∧ IsTree u ∧
      tree_traverse t q = some (q + u.length) ∧
      t.drop (q + u.length) = rest ∧
      (t.drop q).take u.length = u ∧
      t = t.take q ++ u ++ rest := by
  obtain ⟨u, rest, hdec, hu⟩ := ht.subtree_at q hq
  have hdlen : (t.drop q).length = t.length - q := by simp
  have hlen : t.length - q = u.length + rest.length := by
    rw [← hdlen, hdec]; simp
  refine ⟨u, rest, hdec, hu, ?_, ?_, ?_, ?_⟩
  · have harith : t.length - rest.length = q + u.length := by omega
    unfold tree_traverse
    rw [hdec, travF_complete hu rest (t.length + 1) (by omega)]
    show some (t.length - rest.length) = some (q + u.length)
    rw [harith]
  · rw [← List.drop_drop, hdec, List.drop_left]
  · rw [hdec, List.take_left]
  · conv_lhs => rw [← List.take_append_drop q t]
    rw [hdec, List.append_assoc]

/-- Traversing a whole well-formed tree from position 0 returns its
length. -/
theorem tree_traverse_zero {t : List Int} (ht : IsTree t) :
    tree_traverse t 0 = some t.length := by
  unfold tree_traverse
  have h : travF (t.length + 1) (t.drop 0) = some [] := by
    rw [List.drop_zero]
    have := travF_complete ht [] (t.length + 1) (by omega)
    simpa using this
  rw [h]
  simp

/-- Fuel-indexed embedding of `tree_eval` (gp.c lines 174-203).  The C
function evaluates the prefix array with an in-object cursor `gp->p`;
we model the suffix of the code array starting at the cursor and return
the value together with the suffix left after the evaluated sub-tree
(design note §9 of the spec describes exactly this rewrite).  Terminal
codes `c ≥ 4 + GP_NUM_CONS` read input `x[c - 4 - GP_NUM_CONS]`; codes
`4 ≤ c` read the shared constant `gp_cons[c - 4]`; `DIV` returns the
numerator when the denominator evaluates to exactly zero.  `none`
models the fatal `exit` on a negative code, an out-of-range cursor
(undefined behaviour in C) and fuel exhaustion. -/
def tree_evalF (nc : Nat) (cons x : List Rat) :
    Nat → List Int → Option (Rat × List Int)
  | 0, _ => none
  | _ + 1, [] => none
  | fuel + 1, c :: rest =>
    if 4 + (nc : Int) ≤ c then
      some (x.getD (c - 4 - nc).toNat 0, rest)
    else if 4 ≤ c then
      some (cons.getD (c - 4).toNat 0, rest)
    else if c = 0 then
      match tree_evalF nc cons x fuel rest with
      | none => none
      | some (a, r1) =>
        match tree_evalF nc cons x fuel r1 with
        | none => none
        | some (b, r2) => some (a + b, r2)
    else if c = 1 then
      match tree_evalF nc cons x fuel rest with
      | none => none
      | some (a, r1) =>
        match tree_evalF nc cons x fuel r1 with
        | none => none
        | some (b, r2) => some (a - b, r2)
    else if c = 2 then
      match tree_evalF nc cons x fuel rest with
      | none => none
      | some (a, r1) =>
        match tree_evalF nc cons x fuel r1 with
        | none => none
        | some (b, r2) => some (a * b, r2)
    else if c = 3 then
      match tree_evalF nc cons x fuel rest with
      | none => none
      | some (num, r1) =>
        match tree_evalF nc cons x fuel r1 with
        | none => none
        | some (den, r2) => if den = 0 then some (num, r2) else some (num / den, r2)
    else none

/-- Embedding of `tree_eval(xcsf, gp, x)` on a tree with cursor at the
start: the tree's length bounds the recursion depth, so
`t.length + 1` fuel is always sufficient. -/
def tree_eval (nc : Nat) (cons x : List Rat) (t : List Int) :
    Option (Rat × List Int) :=
  tree_evalF nc cons x (t.length + 1) t

/-- Embedding of `tree_crossover` (gp.c lines 275-302) at given random
positions `start1 < len1`, `start2 < len2` (C draws them with
`irand_uniform(0, len)`).  The donor sub-tree ranges are spliced into
the opposite parent and each new length is recomputed by traversing the
result, exactly as the C code does with `tree_traverse(p->tree, 0)`. -/
def tree_crossover (p1 p2 : List Int) (start1 start2 : Nat) :
    Option ((List Int × Nat) × (List Int × Nat)) :=
  match tree_traverse p1 start1, tree_traverse p2 start2 with
  | some end1, some end2 =>
    let new1 := p1.take start1 ++ ((p2.drop start2).take (end2 - start2))
      ++ p1.drop end1
    let new2 := p2.take start2 ++ ((p1.drop start1).take (end1 - start1))
      ++ p2.drop end2
    match tree_traverse new1 0, tree_traverse new2 0 with
    | some len1, some len2 => some ((new1, len1), (new2, len2))
    | _, _ => none
  | _, _ => none

/-- Crossover on well-formed trees at in-range positions always
succeeds, the two results are the expected splices, both are
well-formed trees, and the recomputed lengths equal the true lengths of
the new code arrays. -/
theorem tree_crossover_spec {p1 p2 : List Int} (ht1 : IsTree p1)
    (ht2 : IsTree p2) {start1 start2 : Nat} (hs1 : start1 < p1.length)
    (hs2 : start2 < p2.length) :
    ∃ u1 r1 u2 r2,
      p1 = p1.take start1 ++ u1 ++ r1 ∧ IsTree u1 ∧
      p2 = p2.take start2 ++ u2 ++ r2 ∧ IsTree u2 ∧
      tree_crossover p1 p2 start1 start2 =
        some (((p1.take start1 ++ u2 ++ r1),
               (p1.take start1 ++ u2 ++ r1).length),
              ((p2.take start2 ++ u1 ++ r2),
               (p2.take start2 ++ u1 ++ r2).length)) ∧
      IsTree (p1.take start1 ++ u2 ++ r1) ∧
      IsTree (p2.take start2 ++ u1 ++ r2) := by
  obtain ⟨u1, r1, hdec1, hu1, htrav1, hdrop1, htk1, hsplit1⟩ :=
    tree_traverse_subtree ht1 hs1
  obtain ⟨u2, r2, hdec2, hu2, htrav2, hdrop2, htk2, hsplit2⟩ :=
    tree_traverse_subtree ht2 hs2
  have hnew1 : IsTree (p1.take start1 ++ u2 ++ r1) :=
    IsTree.replace hu1 hu2 ht1 hsplit1
  have hnew2 : IsTree (p2.take start2 ++ u1 ++ r2) :=
    IsTree.replace hu2 hu1 ht2 hsplit2
  refine ⟨u1, r1, u2, r2, hsplit1, hu1, hsplit2, hu2, ?_, hnew1, hnew2⟩
  have he1 : start1 + u1.length - start1 = u1.length := by omega
  have he2 : start2 + u2.length - start2 = u2.length := by omega
  simp only [tree_crossover, htrav1, htrav2, he1, he2, htk1, htk2,
    hdrop1, hdrop2, tree_traverse_zero hnew1, tree_traverse_zero hnew2]

/-! ## Random growth (tree_grow / tree_rand, gp.c lines 77-152)

The random number generator `irand_uniform(lo, hi)` (utils.c, not part
of the sources under study; its documented contract is a uniformly
random integer in `[lo, hi)`) is modelled by an explicit stream
`rng : Nat → Nat` of raw draws together with a cursor `k` counting the
draws consumed so far; a draw with bounds `lo, hi` maps the raw value
into `[lo, hi)`.  All claims quantify over every stream, so any model
whose image is exactly `[lo, hi)` is adequate. -/

/-- A raw draw `n` mapped into `[lo, hi)`, modelling one call of
`irand_uniform(lo, hi)` (so long as `lo < hi`). -/
def irand (lo hi n : Nat) : Nat := lo + n % (hi - lo)

/-- Result of `tree_grow`: the grown buffer (`none` models the C
return value `-1`, growth aborted because `p >= max`), and the stream
cursor after the call. -/
structure GrowR where
  buf : Option (List Int)
  k : Nat
deriving DecidableEq, Repr

/-- Embedding of `tree_grow` (gp.c lines 77-110).  The C function
writes into `buffer` at positions `p, p+1, ...`; since growth is
strictly left-to-right the buffer contents up to `p` are carried as the
list `acc` with `p = acc.length`.  One `irand_uniform(0, 2)` draw is
consumed on entry even when `p >= max` aborts the call; `p == 0`
forces `prim = 1`; a function node is emitted and grown twice with
`depth - 1` unless `prim == 0` or `depth == 0` selects a terminal.
`depth` is a C `int`; calls from `tree_rand` pass the configuration
value `GP_INIT_DEPTH`, modelled as a natural number. -/
def tree_grow (nc xdim max : Nat) (rng : Nat → Nat) :
    Nat → Nat → List Int → GrowR
  | 0, k, acc =>
    if max ≤ acc.length then ⟨none, k + 1⟩
    else ⟨some (acc ++ [(irand 4 (4 + nc + xdim) (rng (k + 1)) : Int)]), k + 2⟩
  | depth + 1, k, acc =>
    if max ≤ acc.length then ⟨none, k + 1⟩
    else if acc.length ≠ 0 ∧ irand 0 2 (rng k) = 0 then
      ⟨some (acc ++ [(irand 4 (4 + nc + xdim) (rng (k + 1)) : Int)]), k + 2⟩
    else
      match tree_grow nc xdim max rng depth (k + 2)
          (acc ++ [(irand 0 4 (rng (k + 1)) : Int)]) with
      | ⟨none, k1⟩ => ⟨none, k1⟩
      | ⟨some b1, k1⟩ => tree_grow nc xdim max rng depth k1 b1

/-- Embedding of the `do { } while (len < 0)` retry loop of
`tree_rand` (gp.c lines 140-152): each attempt grows from an empty
buffer with `max = GP_MAX_LEN`; a failed attempt discards the partial
tree and regrows from scratch.  The C loop retries without bound, so
it is given an attempt budget `tries`; `none` means every budgeted
attempt failed. -/
def tree_randF (nc xdim depth : Nat) (rng : Nat → Nat) :
    Nat → Nat → Option (List Int)
  | 0, _ => none
  | tries + 1, k =>
    match tree_grow nc xdim GP_MAX_LEN rng depth k [] with
    | ⟨some b, _⟩ => some b
    | ⟨none, k1⟩ => tree_randF nc xdim depth rng tries k1

/-- Growth only ever appends: a successful `tree_grow` returns a
buffer extending the buffer it was given. -/
theorem tree_grow_extends (nc xdim max : Nat) (rng : Nat → Nat) :
    ∀ (depth k : Nat) (acc b : List Int),
      (tree_grow nc xdim max rng depth k acc).buf = some b →
      ∃ ext, b = acc ++ ext := by
  intro depth
  induction depth with
  | zero =>
    intro k acc b h
    unfold tree_grow at h
    split at h
    · simp at h
    · simp only at h
      exact ⟨_, (Option.some.inj h).symm⟩
  | succ d ih =>
    intro k acc b h
    unfold tree_grow at h
    split at h
    · simp at h
    · split at h
      · simp only at h
        exact ⟨_, (Option.some.inj h).symm⟩
      · split at h
        · simp at h
        · rename_i b1 k1 heq
          have hbuf1 : (tree_grow nc xdim max rng d (k + 2)
              (acc ++ [(irand 0 4 (rng (k + 1)) : Int)])).buf = some b1 := by
            rw [heq]
          obtain ⟨e1, he1⟩ := ih _ _ _ hbuf1
          obtain ⟨e2, he2⟩ := ih _ _ _ h
          refine ⟨(irand 0 4 (rng (k + 1)) : Int) :: e1 ++ e2, ?_⟩
          rw [he2, he1]
          simp

/-- With positive depth and positive room, growth from an empty buffer
writes a function code (`0 ≤ c < 4`) at position 0: `p == 0` forces
`prim = 1` and `depth != 0` avoids the terminal branch. -/
theorem tree_grow_root_function (nc xdim max : Nat) (rng : Nat → Nat)
    (d k : Nat) (b : List Int) (hmax : 0 < max)
    (h : (tree_grow nc xdim max rng (d + 1) k []).buf = some b) :
    ∃ c, b.head? = some c ∧ 0 ≤ c ∧ c < 4 := by
  unfold tree_grow at h
  rw [if_neg (show ¬ max ≤ List.length ([] : List Int) by simp; omega)] at h
  rw [if_neg (by simp)] at h
  set f : Int := (irand 0 4 (rng (k + 1)) : Int) with hf
  have hfbound : 0 ≤ f ∧ f < 4 := by
    have h4 : irand 0 4 (rng (k + 1)) < 4 := by
      unfold irand
      omega
    constructor
    · rw [hf]; positivity
    · rw [hf]; exact_mod_cast h4
  cases hmatch : tree_grow nc xdim max rng d (k + 2) ([] ++ [f]) with
  | mk buf1 k1 =>
    rw [hmatch] at h
    cases buf1 with
    | none => simp at h
    | some b1 =>
      simp only at h
      have hb1 : (tree_grow nc xdim max rng d (k + 2) ([] ++ [f])).buf
          = some b1 := by rw [hmatch]
      obtain ⟨e1, he1⟩ := tree_grow_extends nc xdim max rng d (k + 2) _ b1 hb1
      obtain ⟨e2, he2⟩ := tree_grow_extends nc xdim max rng d k1 b1 b h
      refine ⟨f, ?_, hfbound.1, hfbound.2⟩
      rw [he2, he1]
      simp

/-- Every tree delivered by the `tree_rand` retry loop with positive
initial depth has a function code at the root. -/
theorem tree_randF_root_function (nc xdim depth : Nat) (rng : Nat → Nat)
    (hd : 1 ≤ depth) :
    ∀ (tries k : Nat) (b : List Int),
      tree_randF nc xdim depth rng tries k = some b →
      ∃ c, b.head? = some c ∧ 0 ≤ c ∧ c < 4 := by
  obtain ⟨d, rfl⟩ : ∃ d, depth = d + 1 := ⟨depth - 1, by omega⟩
  intro tries
  induction tries with
  | zero => intro k b h; simp [tree_randF] at h
  | succ t ih =>
    intro k b h
    unfold tree_randF at h
    cases hg : tree_grow nc xdim GP_MAX_LEN rng (d + 1) k [] with
    | mk buf0 k1 =>
      rw [hg] at h
      cases buf0 with
      | none =>
        simp only at h
        exact ih _ _ h
      | some b0 =>
        simp only [Option.some.injEq] at h
        subst h
        exact tree_grow_root_function nc xdim GP_MAX_LEN rng d k b0
          (by unfold GP_MAX_LEN; omega) (by rw [hg])

/-! ## GP trees as records and point mutation (gp.c lines 312-329)

`struct GP_TREE` carries the code array `tree`, its length `len`, the
evaluation cursor `p` and the self-adaptive mutation-rate vector `mu`
(`N_MU = 1` rate of kind `SAM_RATE_SELECT`). -/

/-- `N_MU` from gp.c: number of tree-GP mutation rates. -/
def N_MU : Nat := 1

/-- Embedding of `struct GP_TREE` (gp.h): code array, length, cursor,
mutation rates.  `p` and `len` are C `int`s. -/
structure GP_TREE where
  p : Int
  len : Int
  tree : List Int
  mu : List Rat
deriving DecidableEq, Repr

/-- Result of the mutation scan over the code array: the rewritten
codes, the stream cursor after the scan, and the `changed` flag. -/
structure ScanR where
  out : List Int
  k : Nat
  changed : Bool
deriving DecidableEq, Repr

/-- The per-node scan of `tree_mutate` (gp.c lines 318-327): each node
fires with probability `mu[0]` (one `rand_uniform(0, 1)` draw from the
real stream `rq`); a fired node is resampled (one `irand_uniform` draw
from the integer stream `rn`), functions among functions and terminals
among terminals, and sets `changed = true` whether or not the freshly
drawn code differs from the old one. -/
def mutate_scan (mu0 : Rat) (rq : Nat → Rat) (rn : Nat → Nat)
    (tmax : Nat) : List Int → Nat → ScanR
  | [], k => ⟨[], k, false⟩
  | c :: cs, k =>
    if rq k < mu0 then
      let c' : Int := if 4 ≤ c then (irand 4 tmax (rn (k + 1)) : Int)
        else (irand 0 4 (rn (k + 1)) : Int)
      let rest := mutate_scan mu0 rq rn tmax cs (k + 2)
      ⟨c' :: rest.out, rest.k, true⟩
    else
      let rest := mutate_scan mu0 rq rn tmax cs (k + 1)
      ⟨c :: rest.out, rest.k, rest.changed⟩

/-- Embedding of `tree_mutate` (gp.c lines 312-329).  `sam_adapt`
(sam.c, not among the sources under study; per the spec §4.3 it
perturbs each rate, `SAM_RATE_SELECT` choosing from a discrete rate
ladder) is passed in as an explicit function `adapt`; it runs before
the scan and the scan threshold is the adapted `mu[0]`.  Returns the
`changed` flag and the mutated tree.  The scan runs over the first
`len` codes, mirroring the C loop bound `i < gp->len`. -/
def tree_mutate (adapt : List Rat → List Rat) (rq : Nat → Rat)
    (rn : Nat → Nat) (nc xdim : Nat) (gp : GP_TREE) : Bool × GP_TREE :=
  let mu' := adapt gp.mu
  let mu0 := mu'.getD 0 0
  let r := mutate_scan mu0 rq rn (4 + nc + xdim) (gp.tree.take gp.len.toNat) 0
  (r.changed, { gp with tree := r.out ++ gp.tree.drop gp.len.toNat, mu := mu' })

/-- If no node of the scan fired, the code array is returned
unchanged. -/
theorem mutate_scan_unchanged (mu0 : Rat) (rq : Nat → Rat)
    (rn : Nat → Nat) (tmax : Nat) :
    ∀ (cs : List Int) (k : Nat),
      (mutate_scan mu0 rq rn tmax cs k).changed = false →
      (mutate_scan mu0 rq rn tmax cs k).out = cs := by
  intro cs
  induction cs with
  | nil => intro k _; simp [mutate_scan]
  | cons c cs ih =>
    intro k h
    unfold mutate_scan at h ⊢
    by_cases hfire : rq k < mu0
    · rw [if_pos hfire] at h
      simp at h
    · rw [if_neg hfire] at h ⊢
      simp only at h ⊢
      rw [ih (k + 1) h]

/-- `tree_mutate` returning `false` means the code array is exactly
the pre-mutation code array. -/
theorem tree_mutate_false_unchanged (adapt : List Rat → List Rat)
    (rq : Nat → Rat) (rn : Nat → Nat) (nc xdim : Nat) (gp : GP_TREE)
    (h : (tree_mutate adapt rq rn nc xdim gp).1 = false) :
    (tree_mutate adapt rq rn nc xdim gp).2.tree = gp.tree := by
  unfold tree_mutate at h ⊢
  simp only at h ⊢
  rw [mutate_scan_unchanged _ _ _ _ _ _ h]
  exact List.take_append_drop _ _

/-! ## Binary persistence (gp.c lines 338-373, neural.c lines 420-463)

The serialized byte stream is modelled as a list of tagged scalars: an
`fwrite` of a C `int` appends an `Item.iv`, an `fwrite` of a `double`
appends an `Item.dv`; `fread` consumes from the front and fails
(`none`) on a short or type-skewed read. -/

/-- One fixed-width field of the binary stream. -/
inductive Item where
  | iv (z : Int)
  | dv (q : Rat)
deriving DecidableEq, Repr

/-- Read one C `int` from the stream. -/
def readInt : List Item → Option (Int × List Item)
  | Item.iv z :: s => some (z, s)
  | _ => none

/-- Read one C `double` from the stream. -/
def readRat : List Item → Option (Rat × List Item)
  | Item.dv q :: s => some (q, s)
  | _ => none

/-- Read `n` C `int`s from the stream. -/
def readInts : Nat → List Item → Option (List Int × List Item)
  | 0, s => some ([], s)
  | n + 1, s =>
    match readInt s with
    | none => none
    | some (z, s1) =>
      match readInts n s1 with
      | none => none
      | some (zs, s2) => some (z :: zs, s2)

/-- Read `n` C `double`s from the stream. -/
def readRats : Nat → List Item → Option (List Rat × List Item)
  | 0, s => some ([], s)
  | n + 1, s =>
    match readRat s with
    | none => none
    | some (q, s1) =>
      match readRats n s1 with
      | none => none
      | some (qs, s2) => some (q :: qs, s2)

/-- Embedding of `tree_save` (gp.c lines 338-348): cursor, length,
`len` codes, `N_MU` rates, in that order. -/
def tree_save (gp : GP_TREE) : List Item :=
  [Item.iv gp.p, Item.iv gp.len]
    ++ (gp.tree.take gp.len.toNat).map Item.iv
    ++ (gp.mu.take N_MU).map Item.dv

/-- Embedding of `tree_load` (gp.c lines 357-373): mirrors the save
order; a loaded length `< 1` is a fatal read error (`none`). -/
def tree_load (s : List Item) : Option (GP_TREE × List Item) :=
  match readInt s with
  | none => none
  | some (p, s1) =>
    match readInt s1 with
    | none => none
    | some (len, s2) =>
      if len < 1 then none
      else
        match readInts len.toNat s2 with
        | none => none
        | some (tr, s3) =>
          match readRats N_MU s3 with
          | none => none
          | some (mu, s4) => some (⟨p, len, tr, mu⟩, s4)

/-- Reading back a run of serialized ints yields the original list. -/
theorem readInts_map (zs : List Int) :
    ∀ rest : List Item,
      readInts zs.length (zs.map Item.iv ++ rest) = some (zs, rest) := by
  induction zs with
  | nil => intro rest; simp [readInts]
  | cons z zs ih =>
    intro rest
    simp [readInts, readInt, ih]

/-- Reading back a run of serialized doubles yields the original
list. -/
theorem readRats_map (qs : List Rat) :
    ∀ rest : List Item,
      readRats qs.length (qs.map Item.dv ++ rest) = some (qs, rest) := by
  induction qs with
  | nil => intro rest; simp [readRats]
  | cons q qs ih =>
    intro rest
    simp [readRats, readRat, ih]

/-- GP-tree persistence round-trips: loading a saved tree (followed by
any further stream content) returns an attribute-for-attribute copy of
the original and leaves the rest of the stream untouched, for every
tree satisfying the structural invariants maintained by gp.c
(`len` is the code array's length, `len ≥ 1`, `mu` holds `N_MU`
rates). -/
theorem tree_save_load (gp : GP_TREE) (rest : List Item)
    (hlen : gp.len = (gp.tree.length : Int)) (hpos : 1 ≤ gp.len)
    (hmu : gp.mu.length = N_MU) :
    tree_load (tree_save gp ++ rest) = some (gp, rest) := by
  have htoNat : gp.len.toNat = gp.tree.length := by omega
  have htake : gp.tree.take gp.len.toNat = gp.tree := by
    rw [htoNat]; exact List.take_length gp.tree
  have hmutake : gp.mu.take N_MU = gp.mu := by
    rw [← hmu]; exact List.take_length gp.mu
  unfold tree_save tree_load
  rw [htake, hmutake]
  simp only [List.cons_append, List.nil_append, List.append_assoc, readInt]
  rw [if_neg (show ¬ gp.len < 1 by omega)]
  rw [htoNat]
  rw [readInts_map gp.tree (gp.mu.map Item.dv ++ rest)]
  have h2 : readRats N_MU (gp.mu.map Item.dv ++ rest) = some (gp.mu, rest) := by
    conv_lhs => rw [← hmu]
    exact readRats_map gp.mu rest
  simp only [h2]

/-! ## Net persistence (neural.c lines 420-463)

`neural_save` writes `(n_layers, n_inputs, n_outputs)` and then, for
each layer in tail→head order, the layer kind tag followed by the
layer's own payload; `neural_load` reads the header, discards the two
size fields, and rebuilds the list with `neural_push`, so the cached
fields of the reloaded net are recomputed from the pushed layers. -/

/-- A layer as seen by the serializer: kind tag, shape, and the
kind-specific payload.  The per-kind `layer_save`/`layer_load`
implementations (neural_layer_*.c) are not among the sources under
study; per the spec §6 each payload is a fixed field order determined
by the kind, modelled as the shape fields followed by
`plen kind` real-valued fields. -/
structure SLayer where
  ltype : Int
  n_inputs : Int
  n_outputs : Int
  extra : List Rat
deriving DecidableEq, Repr

/-- A Net as seen by the serializer: layers in tail→head order plus
the cached counters (the cached output pointer is not persisted). -/
structure SNet where
  layers : List SLayer
  n_layers : Int
  n_inputs : Int
  n_outputs : Int
deriving DecidableEq, Repr

/-- Modelled from the spec: `layer_save` (dispatched per layer kind,
neural_layer_*.c, not among the sources under study) writes the
layer's fields in a fixed kind-determined order — shape first, then
the kind-specific payload. -/
def slayer_save (l : SLayer) : List Item :=
  [Item.iv l.n_inputs, Item.iv l.n_outputs] ++ l.extra.map Item.dv

/-- Modelled from the spec: `layer_load` mirrors `layer_save` exactly;
`plen` gives the payload width fixed by the layer kind. -/
def slayer_load (plen : Int → Nat) (t : Int) (s : List Item) :
    Option (SLayer × List Item) :=
  match readInt s with
  | none => none
  | some (ni, s1) =>
    match readInt s1 with
    | none => none
    | some (no, s2) =>
      match readRats (plen t) s2 with
      | none => none
      | some (ex, s3) => some (⟨t, ni, no, ex⟩, s3)

/-- Embedding of `neural_push` (neural.c lines 151-155) on the
serializer's view of a net: `neural_insert(net, l, n_layers)` walks off
the head end and inserts at the head, setting `n_outputs` from the new
layer (and `n_inputs` too when the net was empty). -/
def snet_push (net : SNet) (l : SLayer) : SNet :=
  if net.layers = [] then
    ⟨[l], net.n_layers + 1, l.n_inputs, l.n_outputs⟩
  else
    ⟨net.layers ++ [l], net.n_layers + 1, net.n_inputs, l.n_outputs⟩

/-- Embedding of `neural_save` (neural.c lines 420-434). -/
def neural_save (net : SNet) : List Item :=
  [Item.iv net.n_layers, Item.iv net.n_inputs, Item.iv net.n_outputs]
    ++ (net.layers.map (fun l => Item.iv l.ltype :: slayer_save l)).flatten

/-- The layer-reading loop of `neural_load` (neural.c lines 454-461):
read a kind tag, load the layer, push it. -/
def neural_loadLayers (plen : Int → Nat) :
    Nat → List Item → SNet → Option (SNet × List Item)
  | 0, s, net => some (net, s)
  | n + 1, s, net =>
    match readInt s with
    | none => none
    | some (t, s1) =>
      match slayer_load plen t s1 with
      | none => none
      | some (l, s2) => neural_loadLayers plen n s2 (snet_push net l)

/-- Embedding of `neural_load` (neural.c lines 443-463): reads the
header, discards the two size fields (the C code reads them into
locals it never uses), re-initialises the net and pushes the loaded
layers. -/
def neural_load (plen : Int → Nat) (s : List Item) :
    Option (SNet × List Item) :=
  match readInt s with
  | none => none
  | some (nl, s1) =>
    match readInt s1 with
    | none => none
    | some (_, s2) =>
      match readInt s2 with
      | none => none
      | some (_, s3) => neural_loadLayers plen nl.toNat s3 ⟨[], 0, 0, 0⟩

/-- Cached-field invariant of the serializer's net view: the counter
is the list length, `n_inputs` tracks the tail (first) layer,
`n_outputs` tracks the head (last) layer, and an empty net has the
zeroed fields of `neural_init`. -/
def SInv (net : SNet) : Prop :=
  net.n_layers = (net.layers.length : Int) ∧
  net.n_inputs = ((net.layers.head?.map SLayer.n_inputs).getD 0) ∧
  net.n_outputs = ((net.layers.getLast?.map SLayer.n_outputs).getD 0)

/-- `snet_push` preserves the cached-field invariant. -/
theorem snet_push_SInv {net : SNet} (h : SInv net) (l : SLayer) :
    SInv (snet_push net l) := by
  obtain ⟨h1, h2, h3⟩ := h
  unfold snet_push SInv
  by_cases hemp : net.layers = []
  · rw [if_pos hemp]
    rw [hemp] at h1
    simp only [List.length_nil, Nat.cast_zero] at h1
    simp [h1]
  · rw [if_neg hemp]
    refine ⟨by simp [h1], ?_, ?_⟩
    · simp only
      rw [h2]
      cases hl : net.layers with
      | nil => exact absurd hl hemp
      | cons a tl => simp [hl]
    · simp [List.getLast?_append]

/-- `snet_push` appends the layer at the head (output) end of the
list. -/
theorem snet_push_layers (net : SNet) (l : SLayer) :
    (snet_push net l).layers = net.layers ++ [l] := by
  unfold snet_push
  by_cases hemp : net.layers = []
  · rw [if_pos hemp, hemp]
    simp
  · rw [if_neg hemp]

/-- Folding `snet_push` over a layer list builds exactly that list and
establishes the cached-field invariant. -/
theorem snet_pushAll (ls : List SLayer) :
    ∀ net : SNet, SInv net →
      SInv (ls.foldl snet_push net) ∧
      (ls.foldl snet_push net).layers = net.layers ++ ls := by
  induction ls with
  | nil =>
    intro net h
    constructor
    · simpa using h
    · simp
  | cons l ls ih =>
    intro net h
    simp only [List.foldl_cons]
    obtain ⟨hinv, hlay⟩ := ih (snet_push net l) (snet_push_SInv h l)
    refine ⟨hinv, ?_⟩
    rw [hlay, snet_push_layers]
    simp

/-- The layer-reading loop inverts the layer-writing loop. -/
theorem neural_loadLayers_save (plen : Int → Nat) (ls : List SLayer)
    (hex : ∀ l ∈ ls, l.extra.length = plen l.ltype) :
    ∀ (net : SNet) (rest : List Item),
      neural_loadLayers plen ls.length
        ((ls.map (fun l => Item.iv l.ltype :: slayer_save l)).flatten ++ rest)
        net
      = some (ls.foldl snet_push net, rest) := by
  induction ls with
  | nil => intro net rest; simp [neural_loadLayers]
  | cons l ls ih =>
    intro net rest
    have hl : l.extra.length = plen l.ltype := hex l (by simp)
    have hload : ∀ T : List Item,
        slayer_load plen l.ltype (slayer_save l ++ T) = some (l, T) := by
      intro T
      unfold slayer_save slayer_load
      simp only [List.cons_append, List.nil_append, List.append_assoc, readInt]
      have hr : readRats (plen l.ltype) (l.extra.map Item.dv ++ T)
          = some (l.extra, T) := by
        conv_lhs => rw [← hl]
        exact readRats_map l.extra T
      simp only [hr]
    simp only [List.length_cons, List.map_cons, List.flatten_cons,
      List.cons_append, List.append_assoc, neural_loadLayers, readInt]
    rw [hload, List.foldl_cons]
    exact ih (fun x hx => hex x (by simp [hx])) (snet_push net l) rest

/-- Net persistence round-trips: loading a saved net returns a net
whose layer list, layer count and cached size fields equal the
original's, for every net satisfying the cached-field invariant that
neural.c maintains (the C loader recomputes the cached fields from the
pushed layers rather than reading them). -/
theorem neural_save_load (plen : Int → Nat) (net : SNet) (rest : List Item)
    (hinv : SInv net)
    (hex : ∀ l ∈ net.layers, l.extra.length = plen l.ltype) :
    neural_load plen (neural_save net ++ rest) = some (net, rest) := by
  obtain ⟨h1, h2, h3⟩ := hinv
  have htoNat : net.n_layers.toNat = net.layers.length := by omega
  unfold neural_save neural_load
  simp only [List.cons_append, List.nil_append, readInt, List.append_assoc]
  rw [htoNat]
  rw [neural_loadLayers_save plen net.layers hex ⟨[], 0, 0, 0⟩ rest]
  obtain ⟨⟨h1', h2', h3'⟩, hlay'⟩ := snet_pushAll net.layers ⟨[], 0, 0, 0⟩
    (by unfold SInv; simp)
  simp only [List.nil_append] at hlay'
  have heq : net.layers.foldl snet_push ⟨[], 0, 0, 0⟩ = net := by
    cases hres : net.layers.foldl snet_push (⟨[], 0, 0, 0⟩ : SNet) with
    | mk lls lnl lni lno =>
      rw [hres] at h1' h2' h3' hlay'
      simp only at h1' h2' h3' hlay'
      subst hlay'
      cases net with
      | mk nls nnl nni nno =>
        simp only at h1 h2 h3 ⊢
        rw [h1', h2', h3', ← h1, ← h2, ← h3]
  rw [heq]

/-! ## The layer list of a Net (neural.c lines 36-166)

`struct Net` holds a doubly-linked list of layers (`head` is the
output-facing end, `tail` the input-facing end; `prev` steps toward the
head, `next` toward the tail) together with cached fields.  The list is
modelled in tail→head order (index 0 = tail); only the fields the list
operations touch are modelled: a layer's input/output counts and the
identity of its output buffer (`double *output`, modelled as an
abstract identifier so that pointer equality of the cached output with
the head layer's buffer is expressible). -/

/-- The slice of `struct Layer` visible to neural.c's list
operations. -/
structure Layer where
  n_inputs : Nat
  n_outputs : Nat
  output : Nat
deriving DecidableEq, Repr

/-- The slice of `struct Net` visible to the list operations: layers
in tail→head order plus the cached fields.  `output = none` models the
`NULL` pointer of a freshly initialised net. -/
structure Net where
  layers : List Layer
  n_layers : Nat
  n_inputs : Nat
  n_outputs : Nat
  output : Option Nat
deriving DecidableEq, Repr

/-- Embedding of `neural_init` (neural.c lines 36-46). -/
def neural_init : Net := ⟨[], 0, 0, 0, none⟩

/-- Embedding of `neural_insert` (neural.c lines 55-95).  The cursor
starts at the tail and steps `pos` times toward the head, so `pos`
names a tail-distance.  Walking off the head end (`pos ≥ n_layers`)
inserts a new head and updates the cached output fields.  Otherwise
the new node is linked in with `new->next = iter->next;
iter->next = new;` and the code then tests `iter->next == NULL` — a
condition that is always false after the preceding assignment, so the
`// new tail` branch (which would update `net->tail` and `n_inputs`)
is unreachable, and when `pos = 0` (so the original `iter->next` was
`NULL`) the `// middle` branch dereferences the null `new->next`.
That undefined behaviour is modelled as `none`. -/
def neural_insert (net : Net) (l : Layer) (pos : Nat) : Option Net :=
  if net.layers = [] then
    some ⟨[l], net.n_layers + 1, l.n_inputs, l.n_outputs, some l.output⟩
  else if net.layers.length ≤ pos then
    some ⟨net.layers ++ [l], net.n_layers + 1, net.n_inputs, l.n_outputs,
      some l.output⟩
  else if pos = 0 then
    none
  else
    some ⟨net.layers.take pos ++ l :: net.layers.drop pos, net.n_layers + 1,
      net.n_inputs, net.n_outputs, net.output⟩

/-- Embedding of `neural_remove` (neural.c lines 103-143).  The cursor
again walks `pos` steps from the tail; walking off the list or
removing the sole layer is fatal (`none`).  Removing the head
(`iter->prev == NULL`, i.e. `pos = n_layers - 1`) updates the cached
output fields from the new head; removing the tail (`pos = 0`) relinks
but updates no cached field — in particular `n_inputs` keeps the
removed tail's value. -/
def neural_remove (net : Net) (pos : Nat) : Option Net :=
  if net.layers.length ≤ pos then none
  else if net.layers.length = 1 then none
  else
    let layers' := net.layers.take pos ++ net.layers.drop (pos + 1)
    if pos = net.layers.length - 1 then
      match layers'.getLast? with
      | some hd => some ⟨layers', net.n_layers - 1, net.n_inputs,
          hd.n_outputs, some hd.output⟩
      | none => none
    else
      some ⟨layers', net.n_layers - 1, net.n_inputs, net.n_outputs,
        net.output⟩

/-- Embedding of `neural_push` (neural.c lines 151-155): insert at
position `n_layers`, i.e. at the head. -/
def neural_push (net : Net) (l : Layer) : Option Net :=
  neural_insert net l net.n_layers

/-- Embedding of `neural_pop` (neural.c lines 162-166): remove the
head layer. -/
def neural_pop (net : Net) : Option Net :=
  neural_remove net (net.n_layers - 1)

/-- One list operation on a Net, as invoked by the evolutionary
loop. -/
inductive NetOp where
  | insert (l : Layer) (pos : Nat)
  | remove (pos : Nat)
deriving DecidableEq, Repr

/-- Apply one operation; `none` propagates a fatal error. -/
def applyOp (net : Net) : NetOp → Option Net
  | NetOp.insert l pos => neural_insert net l pos
  | NetOp.remove pos => neural_remove net pos

/-- Run a sequence of operations from a freshly initialised net. -/
def runOps (ops : List NetOp) : Option Net :=
  ops.foldl (fun acc op => acc.bind (fun n => applyOp n op)) (some neural_init)

/-- `getLast?` looks past an appended prefix when the suffix is
non-empty. -/
theorem getLast?_append_ne {α : Type} (l1 : List α) {l2 : List α}
    (h : l2 ≠ []) : (l1 ++ l2).getLast? = l2.getLast? := by
  rw [List.getLast?_append]
  cases hl : l2.getLast? with
  | none => exact absurd (List.getLast?_eq_none_iff.mp hl) h
  | some v => simp

/-- `getLast?` of a cons with non-empty tail. -/
theorem getLast?_cons_ne {α : Type} (x : α) {l : List α} (h : l ≠ []) :
    (x :: l).getLast? = l.getLast? := by
  have hx : x :: l = [x] ++ l := by simp
  rw [hx]
  exact getLast?_append_ne [x] h

/-- `head?` of a list with at least `pos ≥ 1` elements kept from the
front. -/
theorem head?_take_append {α : Type} {l : List α} (X : List α)
    {pos : Nat} (hpos : 1 ≤ pos) (h : l ≠ []) :
    (l.take pos ++ X).head? = l.head? := by
  cases l with
  | nil => exact absurd rfl h
  | cons a t =>
    cases pos with
    | zero => omega
    | succ p => simp

/-- The cached-field invariant of neural.c that the code actually
maintains: layer count and, for a non-empty net, the output-side
cache (`n_outputs` and the output pointer track the head layer). -/
def NetInv (net : Net) : Prop :=
  net.n_layers = net.layers.length ∧
  (net.layers ≠ [] →
    net.n_outputs = ((net.layers.getLast?.map Layer.n_outputs).getD 0) ∧
    net.output = net.layers.getLast?.map Layer.output)

/-- The input-side cache condition: `n_inputs` tracks the tail
layer. -/
def NetInvIn (net : Net) : Prop :=
  net.layers ≠ [] →
    net.n_inputs = ((net.layers.head?.map Layer.n_inputs).getD 0)

/-- Any surviving insert or remove preserves the layer count and the
output-side cache invariant. -/
theorem applyOp_NetInv {net net' : Net} (hinv : NetInv net) {op : NetOp}
    (h : applyOp net op = some net') : NetInv net' := by
  obtain ⟨hlen, hout⟩ := hinv
  cases op with
  | insert l pos =>
    simp only [applyOp] at h
    unfold neural_insert at h
    by_cases hemp : net.layers = []
    · rw [if_pos hemp] at h
      obtain rfl := Option.some.inj h
      refine ⟨?_, fun _ => by simp⟩
      simp [hlen, hemp]
    · rw [if_neg hemp] at h
      by_cases hhead : net.layers.length ≤ pos
      · rw [if_pos hhead] at h
        obtain rfl := Option.some.inj h
        refine ⟨by simp [hlen], fun _ => ?_⟩
        rw [getLast?_append_ne net.layers (by simp)]
        simp
      · rw [if_neg hhead] at h
        by_cases hzero : pos = 0
        · rw [if_pos hzero] at h
          simp at h
        · rw [if_neg hzero] at h
          obtain rfl := Option.some.inj h
          have hdropne : net.layers.drop pos ≠ [] := by
            have : (net.layers.drop pos).length = net.layers.length - pos := by
              simp
            intro hcon
            rw [hcon] at this
            simp at this
            omega
          have hlast : (net.layers.take pos ++ l :: net.layers.drop pos).getLast?
              = net.layers.getLast? := by
            rw [getLast?_append_ne _ (by simp), getLast?_cons_ne _ hdropne]
            conv_rhs => rw [← List.take_append_drop pos net.layers]
            rw [getLast?_append_ne _ hdropne]
          refine ⟨?_, fun _ => ?_⟩
          · simp only
            rw [hlen]
            simp
            omega
          · obtain ⟨ho1, ho2⟩ := hout hemp
            simp only
            rw [hlast]
            exact ⟨ho1, ho2⟩
  | remove pos =>
    simp only [applyOp] at h
    unfold neural_remove at h
    by_cases hoob : net.layers.length ≤ pos
    · rw [if_pos hoob] at h; simp at h
    · rw [if_neg hoob] at h
      by_cases hone : net.layers.length = 1
      · rw [if_pos hone] at h; simp at h
      · rw [if_neg hone] at h
        have hlen2 : 2 ≤ net.layers.length := by omega
        simp only at h
        by_cases hheadrm : pos = net.layers.length - 1
        · rw [if_pos hheadrm] at h
          have htkdp : net.layers.take pos ++ net.layers.drop (pos + 1)
              = net.layers.take pos := by
            rw [List.drop_eq_nil_of_le (by omega), List.append_nil]
          rw [htkdp] at h
          have htkne : net.layers.take pos ≠ [] := by
            have : (net.layers.take pos).length = pos := by
              simp; omega
            intro hcon
            rw [hcon] at this
            simp at this
            omega
          cases hlast : (net.layers.take pos).getLast? with
          | none => exact absurd (List.getLast?_eq_none_iff.mp hlast) htkne
          | some hd =>
            rw [hlast] at h
            obtain rfl := Option.some.inj h
            refine ⟨?_, fun _ => ?_⟩
            · simp only
              rw [hlen]
              simp
              omega
            · simp only [hlast]
              simp
        · rw [if_neg hheadrm] at h
          obtain rfl := Option.some.inj h
          have hdropne : net.layers.drop (pos + 1) ≠ [] := by
            have : (net.layers.drop (pos + 1)).length
                = net.layers.length - (pos + 1) := by simp
            intro hcon
            rw [hcon] at this
            simp at this
            omega
          have hlast : (net.layers.take pos ++ net.layers.drop (pos + 1)).getLast?
              = net.layers.getLast? := by
            rw [getLast?_append_ne _ hdropne]
            conv_rhs => rw [← List.take_append_drop (pos + 1) net.layers]
            rw [getLast?_append_ne _ hdropne]
          refine ⟨?_, fun _ => ?_⟩
          · simp only
            rw [hlen]
            simp
            omega
          · obtain ⟨ho1, ho2⟩ := hout (by
              intro hcon
              rw [hcon] at hoob
              simp at hoob)
            simp only
            rw [hlast]
            exact ⟨ho1, ho2⟩

/-- Provided no operation removes the tail layer (`remove 0`), the
input-side cache condition is preserved as well. -/
theorem applyOp_NetInvIn {net net' : Net} (hin : NetInvIn net) {op : NetOp}
    (hop : ∀ p, op = NetOp.remove p → p ≠ 0)
    (h : applyOp net op = some net') : NetInvIn net' := by
  cases op with
  | insert l pos =>
    simp only [applyOp] at h
    unfold neural_insert at h
    by_cases hemp : net.layers = []
    · rw [if_pos hemp] at h
      obtain rfl := Option.some.inj h
      intro _
      simp
    · rw [if_neg hemp] at h
      by_cases hhead : net.layers.length ≤ pos
      · rw [if_pos hhead] at h
        obtain rfl := Option.some.inj h
        intro _
        simp only
        rw [hin hemp]
        cases hl : net.layers with
        | nil => exact absurd hl hemp
        | cons a t => simp [hl]
      · rw [if_neg hhead] at h
        by_cases hzero : pos = 0
        · rw [if_pos hzero] at h
          simp at h
        · rw [if_neg hzero] at h
          obtain rfl := Option.some.inj h
          intro _
          simp only
          rw [head?_take_append _ (by omega) hemp]
          exact hin hemp
  | remove pos =>
    have hp0 : pos ≠ 0 := hop pos rfl
    simp only [applyOp] at h
    unfold neural_remove at h
    by_cases hoob : net.layers.length ≤ pos
    · rw [if_pos hoob] at h; simp at h
    · rw [if_neg hoob] at h
      by_cases hone : net.layers.length = 1
      · rw [if_pos hone] at h; simp at h
      · rw [if_neg hone] at h
        simp only at h
        by_cases hheadrm : pos = net.layers.length - 1
        · rw [if_pos hheadrm] at h
          cases hlast : (net.layers.take pos ++ net.layers.drop (pos + 1)).getLast? with
          | none => rw [hlast] at h; simp at h
          | some hd =>
            rw [hlast] at h
            obtain rfl := Option.some.inj h
            intro _
            simp only
            have hemp : net.layers ≠ [] := by
              intro hcon
              rw [hcon] at hoob
              simp at hoob
            rw [head?_take_append _ (by omega) hemp]
            exact hin hemp
        · rw [if_neg hheadrm] at h
          obtain rfl := Option.some.inj h
          intro _
          simp only
          have hemp : net.layers ≠ [] := by
            intro hcon
            rw [hcon] at hoob
            simp at hoob
          rw [head?_take_append _ (by omega) hemp]
          exact hin hemp

/-- A failed operation poisons the rest of the run. -/
theorem foldl_bind_none (l : List NetOp) :
    l.foldl (fun acc op => acc.bind (fun n => applyOp n op)) none = none := by
  induction l with
  | nil => rfl
  | cons o t iht => simpa using iht

/-- Running any operation sequence from `neural_init` yields a net
satisfying the maintained invariant, and additionally the input-side
condition when no operation removed the tail layer. -/
theorem runOps_inv (ops : List NetOp) {net : Net}
    (h : runOps ops = some net) :
    NetInv net ∧
      ((∀ p, NetOp.remove p ∈ ops → p ≠ 0) → NetInvIn net) := by
  have key : ∀ (l : List NetOp) (n0 : Net), NetInv n0 →
      ∀ {nf : Net},
      l.foldl (fun acc op => acc.bind (fun n => applyOp n op)) (some n0)
        = some nf →
      NetInv nf ∧
        (NetInvIn n0 → (∀ p, NetOp.remove p ∈ l → p ≠ 0) → NetInvIn nf) := by
    intro l
    induction l with
    | nil =>
      intro n0 hi nf hf
      simp only [List.foldl_nil, Option.some.injEq] at hf
      subst hf
      exact ⟨hi, fun hii _ => hii⟩
    | cons op rest ih =>
      intro n0 hi nf hf
      simp only [List.foldl_cons] at hf
      have hf2 : rest.foldl (fun acc op => acc.bind (fun n => applyOp n op))
          (applyOp n0 op) = some nf := hf
      cases hstep : applyOp n0 op with
      | none =>
        rw [hstep, foldl_bind_none] at hf2
        exact absurd hf2 (by simp)
      | some n1 =>
        rw [hstep] at hf2
        have hi1 : NetInv n1 := applyOp_NetInv hi hstep
        obtain ⟨ha, hb⟩ := ih n1 hi1 hf2
        refine ⟨ha, fun hii0 hall => ?_⟩
        have hop0 : ∀ p, op = NetOp.remove p → p ≠ 0 := by
          intro p hpeq
          exact hall p (by rw [hpeq]; exact List.mem_cons_self _ _)
        have hii1 : NetInvIn n1 := applyOp_NetInvIn hii0 hop0 hstep
        exact hb hii1 (fun p hp => hall p (List.mem_cons_of_mem _ hp))
  have hinit : NetInv neural_init := by
    unfold NetInv neural_init
    simp
  have hinitIn : NetInvIn neural_init := by
    unfold NetInvIn neural_init
    simp
  obtain ⟨ha, hb⟩ := key ops neural_init hinit h
  exact ⟨ha, hb hinitIn⟩

/-! ## Configuration booleans (config.c lines 493-545)

Every boolean key in `constants_init` is parsed with the pattern
`strncmp(getvalue(KEY), "true", 4) == 0`: the flag is set exactly when
the comparison of the first four characters succeeds. -/

/-- Embedding of the boolean parsing pattern of `constants_init`:
`strncmp(value, "true", 4) == 0`.  `strncmp` with bound 4 compares at
most four characters and stops at a terminator, so it returns 0
exactly when the stored value string starts with the four characters
`t`, `r`, `u`, `e`. -/
def config_read_bool (value : List Char) : Bool :=
  value.take 4 = ['t', 'r', 'u', 'e']

/-! ## Layer argument validation (neural_layer_args.c lines 283-337) -/

/-- The layer kind tags recognised by neural_layer_args.c. -/
inductive LayerType where
  | CONNECTED | DROPOUT | NOISE | RECURRENT | LSTM | SOFTMAX
  | AVGPOOL | MAXPOOL | UPSAMPLE | CONVOLUTIONAL
deriving DecidableEq, Repr

/-- Modelled from the spec: `layer_receives_images` (neural_layer.c,
not among the sources under study) — the image-shaped layer kinds,
whose argument validation checks `channels/height/width` instead of
`n_inputs` (spec §7: "structurally invalid layer args such as
zero-sized image dimensions"). -/
def layer_receives_images : LayerType → Bool
  | LayerType.AVGPOOL => true
  | LayerType.MAXPOOL => true
  | LayerType.UPSAMPLE => true
  | LayerType.CONVOLUTIONAL => true
  | _ => false

/-- The slice of `struct ArgsLayer` that `layer_args_validate`
reads or writes. -/
structure ArgsLayer where
  ltype : LayerType
  n_inputs : Int
  n_init : Int
  n_max : Int
  max_neuron_grow : Int
  height : Int
  width : Int
  channels : Int
  evolve_neurons : Bool
deriving DecidableEq, Repr

/-- The dropout/noise shape fix-up at the top of
`layer_args_validate_inputs` (neural_layer_args.c lines 286-294). -/
def dropout_noise_fixup (arg : ArgsLayer) : ArgsLayer :=
  if arg.ltype = LayerType.DROPOUT ∨ arg.ltype = LayerType.NOISE then
    if arg.n_inputs < 1 then
      { arg with n_inputs := arg.channels * arg.height * arg.width }
    else if arg.channels < 1 ∨ arg.height < 1 ∨ arg.width < 1 then
      { arg with channels := 1, height := 1, width := arg.n_inputs }
    else arg
  else arg

/-- The fatal shape checks of `layer_args_validate_inputs`
(neural_layer_args.c lines 295-311); `none` models
`exit(EXIT_FAILURE)`. -/
def layer_args_shape_checks (arg : ArgsLayer) : Option ArgsLayer :=
  if layer_receives_images arg.ltype then
    if arg.channels < 1 then none
    else if arg.height < 1 then none
    else if arg.width < 1 then none
    else some arg
  else if arg.n_inputs < 1 then none
  else some arg

/-- Embedding of `layer_args_validate_inputs` (neural_layer_args.c
lines 283-312): dropout/noise fix-ups, then the fatal shape checks. -/
def layer_args_validate_inputs (arg0 : ArgsLayer) : Option ArgsLayer :=
  layer_args_shape_checks (dropout_noise_fixup arg0)

/-- The `do { } while` loop of `layer_args_validate` (lines 327-336):
evolving neurons with `max_neuron_grow < 1` is fatal; a node with
`n_max < n_init` is silently raised to `n_max = n_init`. -/
def layer_args_validate_loop : List ArgsLayer → Option (List ArgsLayer)
  | [] => some []
  | a :: rest =>
    if a.evolve_neurons = true ∧ a.max_neuron_grow < 1 then none
    else
      let a' := if a.n_max < a.n_init then { a with n_max := a.n_init } else a
      match layer_args_validate_loop rest with
      | none => none
      | some r => some (a' :: r)

/-- Embedding of `layer_args_validate` (neural_layer_args.c lines
318-337): an empty chain is fatal, the head node's inputs are
validated (and possibly fixed up), then every node passes through the
loop. -/
def layer_args_validate : List ArgsLayer → Option (List ArgsLayer)
  | [] => none
  | a :: rest =>
    match layer_args_validate_inputs a with
    | none => none
    | some a' => layer_args_validate_loop (a' :: rest)

/-- The raise applied by the loop to each node. -/
def raise_n_max (a : ArgsLayer) : ArgsLayer :=
  if a.n_max < a.n_init then { a with n_max := a.n_init } else a

/-- The loop succeeds exactly when no node evolves neurons with
`max_neuron_grow < 1`, and then returns the nodes with `n_max`
raised. -/
theorem layer_args_validate_loop_spec (l : List ArgsLayer) :
    (layer_args_validate_loop l
      = if ∀ a ∈ l, ¬(a.evolve_neurons = true ∧ a.max_neuron_grow < 1)
        then some (l.map raise_n_max) else none) := by
  induction l with
  | nil => simp [layer_args_validate_loop]
  | cons a rest ih =>
    unfold layer_args_validate_loop
    by_cases hbad : a.evolve_neurons = true ∧ a.max_neuron_grow < 1
    · rw [if_pos hbad,
        if_neg (fun hc => (hc a (List.mem_cons_self a rest)) hbad)]
    · rw [if_neg hbad]
      simp only [ih]
      by_cases hrest : ∀ x ∈ rest,
          ¬(x.evolve_neurons = true ∧ x.max_neuron_grow < 1)
      · have hcons : ∀ x ∈ a :: rest,
            ¬(x.evolve_neurons = true ∧ x.max_neuron_grow < 1) := by
          intro x hx
          rcases List.mem_cons.mp hx with rfl | hx2
          · exact hbad
          · exact hrest x hx2
        rw [if_pos hrest, if_pos hcons]
        rfl
      · have hconsneg : ¬ ∀ x ∈ a :: rest,
            ¬(x.evolve_neurons = true ∧ x.max_neuron_grow < 1) :=
          fun hc => hrest (fun x hx => hc x (List.mem_cons_of_mem _ hx))
        rw [if_neg hrest, if_neg hconsneg]

/-- One evaluation step on an input-variable terminal. -/
theorem tree_evalF_input (nc : Nat) (cons x : List Rat) (fuel : Nat)
    {c : Int} (rest : List Int) (h : 4 + (nc : Int) ≤ c) :
    tree_evalF nc cons x (fuel + 1) (c :: rest)
      = some (x.getD (c - 4 - nc).toNat 0, rest) := by
  unfold tree_evalF
  rw [if_pos h]

/-- Evaluating the denominator tree `SUB(IN:0, IN:0)` on `x = [3]`
yields exactly zero (any fuel ≥ 3, stated with fuel `m + 2`). -/
theorem tree_evalF_sub_zero (m : Nat) :
    tree_evalF 0 [] [3] (m + 2) [1, 4, 4] = some (0, []) := by
  have h1 : tree_evalF 0 [] [3] (m + 1) [4, 4] = some (3, [4]) := by
    have := tree_evalF_input 0 [] [3] m ([4] : List Int)
      (show 4 + ((0 : Nat) : Int) ≤ 4 by omega)
    simpa using this
  have h2 : tree_evalF 0 [] [3] (m + 1) [4] = some (3, []) := by
    have := tree_evalF_input 0 [] [3] m ([] : List Int)
      (show 4 + ((0 : Nat) : Int) ≤ 4 by omega)
    simpa using this
  show tree_evalF 0 [] [3] ((m + 1) + 1) (1 :: [4, 4]) = some (0, [])
  unfold tree_evalF
  rw [if_neg (by omega), if_neg (by omega),
      if_neg (show (1 : Int) ≠ 0 by omega), if_pos rfl]
  simp only [h1, h2]
  norm_num

/-! ## Claims -/

/-- C1: For every GP tree and every input vector `x`, evaluating a
`DIV` node whose denominator sub-tree evaluates to exactly zero
returns the value of the numerator sub-tree (protected division); in
particular the tree `DIV(IN:0, SUB(IN:0, IN:0))` evaluated on
`x = [3.0]` returns `3.0`. -/
theorem C1_div_protected :
    (∀ (nc : Nat) (cons x : List Rat) (fuel : Nat) (s s1 s2 : List Int)
      (num : Rat),
      tree_evalF nc cons x fuel s = some (num, s1) →
      tree_evalF nc cons x fuel s1 = some (0, s2) →
      tree_evalF nc cons x (fuel + 1) (3 :: s) = some (num, s2)) ∧
    tree_eval 0 [] [3] [3, 4, 1, 4, 4] = some (3, []) := by
  constructor
  · intro nc cons x fuel s s1 s2 num h1 h2
    unfold tree_evalF
    rw [if_neg (show ¬ 4 + (nc : Int) ≤ 3 by omega),
        if_neg (show ¬ (4 : Int) ≤ 3 by omega),
        if_neg (show (3 : Int) ≠ 0 by omega),
        if_neg (show (3 : Int) ≠ 1 by omega),
        if_neg (show (3 : Int) ≠ 2 by omega),
        if_pos (show (3 : Int) = 3 from rfl)]
    simp only [h1, h2]
    rw [if_pos trivial]
  · have hnum : tree_evalF 0 [] [3] 5 [4, 1, 4, 4] = some (3, [1, 4, 4]) := by
      have := tree_evalF_input 0 [] [3] 4 ([1, 4, 4] : List Int)
        (show 4 + ((0 : Nat) : Int) ≤ 4 by omega)
      simpa using this
    have hden : tree_evalF 0 [] [3] 5 [1, 4, 4] = some (0, []) :=
      tree_evalF_sub_zero 3
    show tree_evalF 0 [] [3] (5 + 1) (3 :: [4, 1, 4, 4]) = some (3, [])
    unfold tree_evalF
    rw [if_neg (by omega), if_neg (by omega),
        if_neg (show (3 : Int) ≠ 0 by omega),
        if_neg (show (3 : Int) ≠ 1 by omega),
        if_neg (show (3 : Int) ≠ 2 by omega),
        if_pos (show (3 : Int) = 3 from rfl)]
    simp only [hnum, hden]
    rw [if_pos trivial]

/-- Witness for C1 at a concrete input: the protected-division rule
applied to the numerator `IN:0` and denominator `SUB(IN:0, IN:0)` on
`x = [3.0]`. -/
theorem C1_div_protected_witness :
    tree_evalF 0 [] [3] 4 [4, 1, 4, 4] = some (3, [1, 4, 4]) ∧
    tree_evalF 0 [] [3] 4 [1, 4, 4] = some (0, []) ∧
    tree_evalF 0 [] [3] 5 [3, 4, 1, 4, 4] = some (3, []) := by
  have ha : tree_evalF 0 [] [3] 4 [4, 1, 4, 4] = some (3, [1, 4, 4]) := by
    have := tree_evalF_input 0 [] [3] 3 ([1, 4, 4] : List Int)
      (show 4 + ((0 : Nat) : Int) ≤ 4 by omega)
    simpa using this
  have hb : tree_evalF 0 [] [3] 4 [4, 1, 4] = some (3, [1, 4]) := by
    have := tree_evalF_input 0 [] [3] 3 ([1, 4] : List Int)
      (show 4 + ((0 : Nat) : Int) ≤ 4 by omega)
    simpa using this
  have hc : tree_evalF 0 [] [3] 4 [1, 4, 4] = some (0, []) :=
    tree_evalF_sub_zero 2
  exact ⟨ha, hc,
    C1_div_protected.1 0 [] [3] 4 [4, 1, 4, 4] [1, 4, 4] [] 3 ha hc⟩

/-- C2 counterexample: after `insert A 0; insert B 1; remove 0` the
net holds the single layer `B`, yet the cached `n_inputs` still holds
the removed tail `A`'s value `1` rather than `B`'s `2` —
`neural_remove`'s tail branch updates no cached field, so the claimed
invariant `n_inputs == tail.n_inputs` fails. -/
theorem C2_counterexample :
    ∃ net : Net,
      runOps [NetOp.insert ⟨1, 5, 100⟩ 0, NetOp.insert ⟨2, 7, 200⟩ 1,
        NetOp.remove 0] = some net ∧
      net.layers ≠ [] ∧
      net.layers.head?.map Layer.n_inputs = some 2 ∧
      net.n_inputs = 1 := by
  refine ⟨⟨[⟨2, 7, 200⟩], 1, 1, 7, some 200⟩, by decide, by decide,
    by decide, by decide⟩

/-- C2 (amended): after any sequence of insert/remove operations that
leaves at least one layer, `n_outputs` equals the head layer's
`n_outputs` and the cached output pointer equals the head layer's
output buffer; `n_inputs` equals the tail layer's `n_inputs` provided
no operation removed the tail layer (a position-0 remove), which is
the one case neural.c fails to update it. -/
theorem C2_cached_fields (ops : List NetOp) (net : Net)
    (h : runOps ops = some net) (hne : net.layers ≠ []) :
    (net.n_outputs = ((net.layers.getLast?.map Layer.n_outputs).getD 0) ∧
     net.output = net.layers.getLast?.map Layer.output) ∧
    ((∀ p, NetOp.remove p ∈ ops → p ≠ 0) →
      net.n_inputs = ((net.layers.head?.map Layer.n_inputs).getD 0)) := by
  obtain ⟨⟨hlen, hout⟩, hin⟩ := runOps_inv ops h
  exact ⟨hout hne, fun hall => hin hall hne⟩

/-- Witness for C2 at a concrete operation sequence. -/
theorem C2_cached_fields_witness :
    runOps [NetOp.insert ⟨1, 5, 100⟩ 0, NetOp.insert ⟨2, 7, 200⟩ 1]
      = some ⟨[⟨1, 5, 100⟩, ⟨2, 7, 200⟩], 2, 1, 7, some 200⟩ ∧
    ((⟨[⟨1, 5, 100⟩, ⟨2, 7, 200⟩], 2, 1, 7, some 200⟩ : Net).n_outputs
        = (((⟨[⟨1, 5, 100⟩, ⟨2, 7, 200⟩], 2, 1, 7, some 200⟩ : Net).layers.getLast?.map
            Layer.n_outputs).getD 0) ∧
      (⟨[⟨1, 5, 100⟩, ⟨2, 7, 200⟩], 2, 1, 7, some 200⟩ : Net).output
        = (⟨[⟨1, 5, 100⟩, ⟨2, 7, 200⟩], 2, 1, 7, some 200⟩ : Net).layers.getLast?.map
            Layer.output) ∧
    ((∀ p, NetOp.remove p ∈ [NetOp.insert (⟨1, 5, 100⟩ : Layer) 0,
        NetOp.insert (⟨2, 7, 200⟩ : Layer) 1] → p ≠ 0) →
      (⟨[⟨1, 5, 100⟩, ⟨2, 7, 200⟩], 2, 1, 7, some 200⟩ : Net).n_inputs
        = (((⟨[⟨1, 5, 100⟩, ⟨2, 7, 200⟩], 2, 1, 7, some 200⟩ : Net).layers.head?.map
            Layer.n_inputs).getD 0)) := by
  have hrun : runOps [NetOp.insert ⟨1, 5, 100⟩ 0, NetOp.insert ⟨2, 7, 200⟩ 1]
      = some ⟨[⟨1, 5, 100⟩, ⟨2, 7, 200⟩], 2, 1, 7, some 200⟩ := by decide
  obtain ⟨ha, hb⟩ := C2_cached_fields _ _ hrun (by decide)
  exact ⟨hrun, ha, hb⟩

/-- C3 (amended): crossover of two well-formed trees at any in-range
positions succeeds, splices the donor ranges, recomputes each length
by traversal so that it equals the true length of the new code array,
and both results are valid prefix-encoded trees (every function node
has exactly two descendants).  The spec's additional bound
`length ≤ GP_MAX_LEN` does not hold: tree_crossover performs no
length check and can produce trees longer than `GP_MAX_LEN` (see the
counterexample). -/
theorem C3_crossover_valid {p1 p2 : List Int} (ht1 : IsTree p1)
    (ht2 : IsTree p2) {s1 s2 : Nat} (hs1 : s1 < p1.length)
    (hs2 : s2 < p2.length) :
    ∃ n1 n2 : List Int,
      tree_crossover p1 p2 s1 s2 = some ((n1, n1.length), (n2, n2.length)) ∧
      IsTree n1 ∧ IsTree n2 ∧
      tree_traverse n1 0 = some n1.length ∧
      tree_traverse n2 0 = some n2.length := by
  obtain ⟨u1, r1, u2, r2, _, _, _, _, hcross, hn1, hn2⟩ :=
    tree_crossover_spec ht1 ht2 hs1 hs2
  exact ⟨_, _, hcross, hn1, hn2, tree_traverse_zero hn1,
    tree_traverse_zero hn2⟩

/-- Witness for C3: crossover of `ADD(t, t)` with a single terminal at
positions 1 and 0. -/
theorem C3_crossover_valid_witness :
    IsTree [0, 4, 4] ∧ IsTree [5] ∧ (1 : Nat) < 3 ∧ (0 : Nat) < 1 ∧
    ∃ n1 n2 : List Int,
      tree_crossover [0, 4, 4] [5] 1 0 = some ((n1, n1.length), (n2, n2.length)) ∧
      IsTree n1 ∧ IsTree n2 ∧
      tree_traverse n1 0 = some n1.length ∧
      tree_traverse n2 0 = some n2.length := by
  have h1 : IsTree [0, 4, 4] := by
    have : IsTree ((0 : Int) :: [4] ++ [4]) :=
      IsTree.node 0 (by omega) (by omega) [4] [4]
        (IsTree.term 4 (by omega)) (IsTree.term 4 (by omega))
    simpa using this
  have h2 : IsTree [5] := IsTree.term 5 (by omega)
  exact ⟨h1, h2, by omega, by omega,
    C3_crossover_valid h1 h2 (by simp) (by simp)⟩

/-- A left-leaning chain of `SUB` nodes with `k` functions and `k + 1`
terminals: a well-formed tree of length `2k + 1`, used to exhibit
crossover results longer than `GP_MAX_LEN`. -/
def combTree (k : Nat) : List Int :=
  List.replicate k 1 ++ List.replicate (k + 1) 4

/-- The comb is a well-formed tree. -/
theorem combTree_isTree (k : Nat) : IsTree (combTree k) := by
  induction k with
  | zero =>
    have : IsTree [(4 : Int)] := IsTree.term 4 (by omega)
    simpa [combTree] using this
  | succ n ih =>
    have hnode : IsTree ((1 : Int) :: combTree n ++ [4]) :=
      IsTree.node 1 (by omega) (by omega) (combTree n) [4] ih
        (IsTree.term 4 (by omega))
    have heq : combTree (n + 1) = (1 : Int) :: combTree n ++ [4] := by
      unfold combTree
      rw [List.replicate_succ (1 : Int) n,
        List.replicate_succ' (n + 1) (4 : Int)]
      simp [List.append_assoc]
    rw [heq]
    exact hnode

/-- C3 counterexample: crossing two valid trees of length
`9999 ≤ GP_MAX_LEN` at positions 9998 and 0 donates the whole second
parent into the first, producing a tree of length
`9998 + 9999 + |r1| > GP_MAX_LEN` — the claimed bound
`length ≤ GP_MAX_LEN` is violated by `tree_crossover`, which performs
no length check. -/
theorem C3_counterexample :
    IsTree (combTree 4999) ∧ (combTree 4999).length ≤ GP_MAX_LEN ∧
    ∃ n1 n2 : List Int,
      tree_crossover (combTree 4999) (combTree 4999) 9998 0
        = some ((n1, n1.length), (n2, n2.length)) ∧
      GP_MAX_LEN < n1.length := by
  have ht := combTree_isTree 4999
  have hlen : (combTree 4999).length = 9999 := by
    unfold combTree
    rw [List.length_append, List.length_replicate 4999 (1 : Int),
      List.length_replicate 5000 (4 : Int)]
  obtain ⟨u1, r1, u2, r2, hsplit1, hu1, hsplit2, hu2, hcross, hn1, hn2⟩ :=
    tree_crossover_spec ht ht
      (show 9998 < (combTree 4999).length by omega)
      (show 0 < (combTree 4999).length by omega)
  have hu2eq : u2 = combTree 4999 := by
    have h0 : combTree 4999 = u2 ++ r2 := by simpa using hsplit2
    exact hu2.unique ht (by rw [← h0, List.append_nil])
  refine ⟨ht, by unfold GP_MAX_LEN; omega, _, _, hcross, ?_⟩
  have hlentake : ((combTree 4999).take 9998).length = 9998 := by
    rw [List.length_take]
    omega
  have hn1len : ((combTree 4999).take 9998 ++ u2 ++ r1).length
      = 9998 + 9999 + r1.length := by
    simp only [List.length_append, hlentake, hu2eq, hlen]
  rw [hn1len]
  unfold GP_MAX_LEN
  omega

/-- C4 counterexample: the round trip is not bitwise-equal for every
Net.  A net whose cached `n_inputs` is stale — here `1` while its sole
layer reads 2 inputs, exactly the state the real code reaches by
inserting a 1-input tail, pushing a 2-input head and removing the
tail (`neural_remove`'s tail branch at neural.c lines 127-133 never
updates `net->n_inputs`) — saves the stale `1`, but `neural_load`
discards the saved size fields and recomputes the caches via
`neural_push`, so the reloaded net carries `n_inputs = 2`: the
attribute `n_inputs`, which the claim enumerates, differs after the
round trip. -/
theorem C4_counterexample :
    neural_load (fun _ => 0) (neural_save ⟨[⟨0, 2, 7, []⟩], 1, 1, 7⟩ ++ [])
      = some (⟨[⟨0, 2, 7, []⟩], 1, 2, 7⟩, []) ∧
    (⟨[⟨0, 2, 7, []⟩], 1, 2, 7⟩ : SNet).n_inputs
      ≠ (⟨[⟨0, 2, 7, []⟩], 1, 1, 7⟩ : SNet).n_inputs := by
  exact ⟨by decide, by decide⟩

/-- C4 (amended): save-then-load round-trips bitwise for every GP tree
(cursor, length, code array, SAM vector) under the structural
invariants gp.c maintains on live trees (length field matches the
array, `mu` holds `N_MU` rates); and for every Net whose cached fields
agree with its layers (layer count, `n_inputs` = tail's, `n_outputs` =
head's) the reload is bitwise-equal on layer count, cached sizes and
each layer in tail-to-head order.  For a net whose cached `n_inputs`
is stale — reachable, since removing the tail layer leaves `n_inputs`
stale — the reload instead carries the recomputed tail value, so the
round trip is not bitwise-equal on `n_inputs` (see the
counterexample). -/
theorem C4_save_load_roundtrip :
    (∀ (gp : GP_TREE) (rest : List Item),
      gp.len = (gp.tree.length : Int) → 1 ≤ gp.len →
      gp.mu.length = N_MU →
      tree_load (tree_save gp ++ rest) = some (gp, rest)) ∧
    (∀ (plen : Int → Nat) (net : SNet) (rest : List Item),
      SInv net → (∀ l ∈ net.layers, l.extra.length = plen l.ltype) →
      neural_load plen (neural_save net ++ rest) = some (net, rest)) :=
  ⟨fun gp rest h1 h2 h3 => tree_save_load gp rest h1 h2 h3,
   fun plen net rest h1 h2 => neural_save_load plen net rest h1 h2⟩

/-- Witness for C4 at a concrete tree and a concrete two-layer net. -/
theorem C4_save_load_roundtrip_witness :
    tree_load (tree_save ⟨0, 2, [1, 4], [5]⟩ ++ [])
      = some (⟨0, 2, [1, 4], [5]⟩, []) ∧
    neural_load (fun _ => 0)
      (neural_save ⟨[⟨0, 2, 3, []⟩, ⟨1, 3, 4, []⟩], 2, 2, 4⟩ ++ [])
      = some (⟨[⟨0, 2, 3, []⟩, ⟨1, 3, 4, []⟩], 2, 2, 4⟩, []) := by
  constructor
  · exact C4_save_load_roundtrip.1 ⟨0, 2, [1, 4], [5]⟩ [] (by decide)
      (by decide) (by decide)
  · exact C4_save_load_roundtrip.2 (fun _ => 0)
      ⟨[⟨0, 2, 3, []⟩, ⟨1, 3, 4, []⟩], 2, 2, 4⟩ []
      (by unfold SInv; decide) (by decide)

/-- C5 counterexample: inserting into the non-empty net `[A]` at
position 0 does not place the layer at the head — it runs into the
dead `// new tail` branch's null dereference (`new->next->prev` with
`new->next == NULL`), modelled as `none`. -/
theorem C5_counterexample :
    ((⟨[⟨1, 5, 100⟩], 1, 1, 5, some 100⟩ : Net).layers ≠ []) ∧
    neural_insert ⟨[⟨1, 5, 100⟩], 1, 1, 5, some 100⟩ ⟨2, 7, 200⟩ 0
      = none := by
  exact ⟨by decide, by decide⟩

/-- C5 (amended): position 0 does not mean the head.  On a non-empty
net, `insert(layer, 0)` reaches the dead `// new tail` branch and
dereferences a null pointer (modelled `none`); insertion at the head
happens exactly when `pos ≥ n_layers`, and then the cached output
pointer and `n_outputs` are updated to the new layer's; `n_inputs` is
updated only when inserting into an empty net. -/
theorem C5_insert_positions (net : Net) (l : Layer) :
    (net.layers ≠ [] → neural_insert net l 0 = none) ∧
    (net.layers ≠ [] → ∀ pos, net.layers.length ≤ pos →
      neural_insert net l pos = some ⟨net.layers ++ [l], net.n_layers + 1,
        net.n_inputs, l.n_outputs, some l.output⟩) ∧
    (net.layers = [] → neural_insert net l 0 = some ⟨[l], net.n_layers + 1,
      l.n_inputs, l.n_outputs, some l.output⟩) := by
  refine ⟨fun hne => ?_, fun hne pos hpos => ?_, fun hemp => ?_⟩
  · unfold neural_insert
    rw [if_neg hne,
      if_neg (by simp only [not_le]; exact List.length_pos.mpr hne),
      if_pos rfl]
  · unfold neural_insert
    rw [if_neg hne, if_pos hpos]
  · unfold neural_insert
    rw [if_pos hemp]

/-- Witness for C5 at concrete nets. -/
theorem C5_insert_positions_witness :
    (neural_insert ⟨[⟨1, 5, 100⟩], 1, 1, 5, some 100⟩ ⟨2, 7, 200⟩ 0
      = none) ∧
    (neural_insert ⟨[⟨1, 5, 100⟩], 1, 1, 5, some 100⟩ ⟨2, 7, 200⟩ 3
      = some ⟨[⟨1, 5, 100⟩, ⟨2, 7, 200⟩], 2, 1, 7, some 200⟩) ∧
    (neural_insert neural_init ⟨2, 7, 200⟩ 0
      = some ⟨[⟨2, 7, 200⟩], 1, 2, 7, some 200⟩) := by
  obtain ⟨ha, hb, hc⟩ :=
    C5_insert_positions ⟨[⟨1, 5, 100⟩], 1, 1, 5, some 100⟩ ⟨2, 7, 200⟩
  obtain ⟨_, _, hd⟩ := C5_insert_positions neural_init ⟨2, 7, 200⟩
  exact ⟨ha (by decide), hb (by decide) 3 (by decide), hd (by decide)⟩

/-- C6 counterexample: with `GP_INIT_DEPTH = 0` the very first call of
`tree_grow` takes the terminal branch (`depth == 0`) even at position
0, so `tree_rand` delivers a single-terminal tree whose root is not a
function node — the claim fails for that value of `GP_INIT_DEPTH`. -/
theorem C6_counterexample :
    tree_randF 0 1 0 (fun _ => 0) 1 0 = some [4] ∧
    ¬ ((4 : Int) < 4) := by
  exact ⟨by decide, by decide⟩

/-- C6 (amended): for every random stream and every
`GP_INIT_DEPTH ≥ 1`, any tree delivered by the `tree_rand` retry loop
has a function code (`0 ≤ c < 4`) at position 0; and whenever a growth
attempt fails (exceeding `max_len` returns -1), the loop discards the
partial tree and regrows from scratch (an empty buffer), continuing
with the advanced random stream.  With `GP_INIT_DEPTH = 0` the root is
a terminal instead (see the counterexample). -/
theorem C6_root_function (nc xdim depth : Nat) (rng : Nat → Nat) :
    (1 ≤ depth → ∀ (tries k : Nat) (b : List Int),
      tree_randF nc xdim depth rng tries k = some b →
      ∃ c, b.head? = some c ∧ 0 ≤ c ∧ c < 4) ∧
    (∀ (t k : Nat),
      (tree_grow nc xdim GP_MAX_LEN rng depth k []).buf = none →
      tree_randF nc xdim depth rng (t + 1) k
        = tree_randF nc xdim depth rng t
            (tree_grow nc xdim GP_MAX_LEN rng depth k []).k) := by
  constructor
  · intro hd tries k b h
    exact tree_randF_root_function nc xdim depth rng hd tries k b h
  · intro t k hnone
    cases hg : tree_grow nc xdim GP_MAX_LEN rng depth k [] with
    | mk buf0 k1 =>
      have hb : buf0 = none := by rw [hg] at hnone; exact hnone
      subst hb
      conv_lhs => unfold tree_randF
      rw [hg]

/-- Witness for C6: depth 1 with the all-zero stream grows
`ADD(t, t)` whose root is the function code 0. -/
theorem C6_root_function_witness :
    tree_randF 0 1 1 (fun _ => 0) 1 0 = some [0, 4, 4] ∧
    ∃ c, ([0, 4, 4] : List Int).head? = some c ∧ 0 ≤ c ∧ c < 4 := by
  have hrun : tree_randF 0 1 1 (fun _ => 0) 1 0 = some [0, 4, 4] := by decide
  exact ⟨hrun,
    (C6_root_function 0 1 1 (fun _ => 0)).1 (by omega) 1 0 [0, 4, 4] hrun⟩

/-- C7 counterexample: with mutation rate 1 every node fires, and the
single terminal is resampled to the very same code: `tree_mutate`
returns `true` although every attribute of the tree equals its
pre-mutation value — `changed` records that a node was resampled, not
that anything differs. -/
theorem C7_counterexample :
    tree_mutate (fun m => m) (fun _ => 0) (fun _ => 0) 0 1
      ⟨0, 1, [4], [1]⟩ = (true, ⟨0, 1, [4], [1]⟩) := by
  decide

/-- C7 (amended): `tree_mutate` returns `true` exactly when at least
one node was resampled; a `false` return guarantees the code array is
unchanged (so any difference forces `true`), but a `true` return does
not guarantee a difference, since a resample may redraw the old code
(see the counterexample). -/
theorem C7_mutate_flag (adapt : List Rat → List Rat) (rq : Nat → Rat)
    (rn : Nat → Nat) (nc xdim : Nat) (gp : GP_TREE) :
    ((tree_mutate adapt rq rn nc xdim gp).1 = false →
      (tree_mutate adapt rq rn nc xdim gp).2.tree = gp.tree) ∧
    ((tree_mutate adapt rq rn nc xdim gp).2.tree ≠ gp.tree →
      (tree_mutate adapt rq rn nc xdim gp).1 = true) := by
  constructor
  · exact tree_mutate_false_unchanged adapt rq rn nc xdim gp
  · intro hne
    cases hflag : (tree_mutate adapt rq rn nc xdim gp).1 with
    | false =>
      exact absurd (tree_mutate_false_unchanged adapt rq rn nc xdim gp hflag)
        hne
    | true => rfl

/-- Witness for C7: with the real draw 1 (never `< mu0 ≤ 1`) nothing
fires, the flag is `false` and the code array is unchanged. -/
theorem C7_mutate_flag_witness :
    (tree_mutate (fun m => m) (fun _ => 1) (fun _ => 0) 0 1
      ⟨0, 1, [4], [1]⟩).1 = false ∧
    (tree_mutate (fun m => m) (fun _ => 1) (fun _ => 0) 0 1
      ⟨0, 1, [4], [1]⟩).2.tree = [4] :=
  ⟨by decide,
   (C7_mutate_flag (fun m => m) (fun _ => 1) (fun _ => 0) 0 1
     ⟨0, 1, [4], [1]⟩).1 (by decide)⟩

/-- C8 counterexample: the parser compares only the first four
characters (`strncmp(value, "true", 4)`), so the stored value
`"truex"`, which is not the literal string `"true"`, still parses as
`true`. -/
theorem C8_counterexample :
    config_read_bool ['t', 'r', 'u', 'e', 'x'] = true ∧
    (['t', 'r', 'u', 'e', 'x'] : List Char) ≠ ['t', 'r', 'u', 'e'] := by
  exact ⟨by decide, by decide⟩

/-- C8 (amended): a boolean configuration value parses as `true`
exactly when its first four characters are `t`, `r`, `u`, `e` — i.e.
when the stored value string starts with `"true"` — and as `false`
for every other string. -/
theorem C8_bool_semantics (value : List Char) :
    config_read_bool value = true ↔
      value.take 4 = ['t', 'r', 'u', 'e'] := by
  unfold config_read_bool
  exact decide_eq_true_iff

/-- The dropout/noise fix-up touches only shape fields: the evolution
fields and the neuron bounds pass through unchanged. -/
theorem dropout_noise_fixup_preserves (a : ArgsLayer) :
    (dropout_noise_fixup a).evolve_neurons = a.evolve_neurons ∧
    (dropout_noise_fixup a).max_neuron_grow = a.max_neuron_grow ∧
    (dropout_noise_fixup a).n_init = a.n_init ∧
    (dropout_noise_fixup a).n_max = a.n_max := by
  unfold dropout_noise_fixup
  split
  · split
    · exact ⟨rfl, rfl, rfl, rfl⟩
    · split
      · exact ⟨rfl, rfl, rfl, rfl⟩
      · exact ⟨rfl, rfl, rfl, rfl⟩
  · exact ⟨rfl, rfl, rfl, rfl⟩

/-- A successful input validation returns exactly the fixed-up
node. -/
theorem layer_args_validate_inputs_some {a a' : ArgsLayer}
    (h : layer_args_validate_inputs a = some a') :
    a' = dropout_noise_fixup a := by
  unfold layer_args_validate_inputs layer_args_shape_checks at h
  split at h
  · split at h
    · exact absurd h (by simp)
    · split at h
      · exact absurd h (by simp)
      · split at h
        · exact absurd h (by simp)
        · exact (Option.some.inj h).symm
  · split at h
    · exact absurd h (by simp)
    · exact (Option.some.inj h).symm

/-- The raise applied by the validation loop establishes
`n_init ≤ n_max`. -/
theorem raise_n_max_le (b : ArgsLayer) :
    (raise_n_max b).n_init ≤ (raise_n_max b).n_max := by
  unfold raise_n_max
  split
  · simp
  · omega

/-- C9 (implicit): `layer_args_validate` never reports an error
because a node has `n_max < n_init` — such a node is silently raised
to `n_max = n_init`, so after a successful validation every node
satisfies `n_max ≥ n_init`; meanwhile an empty argument list is fatal,
any node evolving neurons with `max_neuron_grow < 1` is fatal, and
when the head passes the input checks and no node violates the
neuron-growth rule, validation succeeds and returns every node with
its `n_max` raised (all other fields untouched by the loop). -/
theorem C9_validate_n_max :
    (∀ (args out : List ArgsLayer), layer_args_validate args = some out →
      ∀ a ∈ out, a.n_init ≤ a.n_max) ∧
    layer_args_validate [] = none ∧
    (∀ (args : List ArgsLayer) (a : ArgsLayer), a ∈ args →
      a.evolve_neurons = true → a.max_neuron_grow < 1 →
      layer_args_validate args = none) ∧
    (∀ (a : ArgsLayer) (rest : List ArgsLayer) (a' : ArgsLayer),
      layer_args_validate_inputs a = some a' →
      (∀ b ∈ a' :: rest, ¬(b.evolve_neurons = true ∧ b.max_neuron_grow < 1)) →
      layer_args_validate (a :: rest)
        = some ((a' :: rest).map raise_n_max)) := by
  refine ⟨?_, rfl, ?_, ?_⟩
  · intro args out h a ha
    cases args with
    | nil => exact absurd h (by simp [layer_args_validate])
    | cons a0 rest =>
      simp only [layer_args_validate] at h
      cases hin : layer_args_validate_inputs a0 with
      | none => rw [hin] at h; exact absurd h (by simp)
      | some a0' =>
        rw [hin] at h
        simp only [layer_args_validate_loop_spec] at h
        split at h
        · obtain rfl := Option.some.inj h
          obtain ⟨b, _, rfl⟩ := List.mem_map.mp ha
          exact raise_n_max_le b
        · exact absurd h (by simp)
  · intro args a ha he hg
    cases args with
    | nil => rfl
    | cons a0 rest =>
      simp only [layer_args_validate]
      cases hin : layer_args_validate_inputs a0 with
      | none => rfl
      | some a0' =>
        simp only [layer_args_validate_loop_spec]
        rw [if_neg ?hbad]
        case hbad =>
          intro hall
          rcases List.mem_cons.mp ha with rfl | hmem
          · obtain ⟨he', hg', _, _⟩ := dropout_noise_fixup_preserves a
            rw [layer_args_validate_inputs_some hin] at hall
            exact hall (dropout_noise_fixup a) (List.mem_cons_self _ _)
              ⟨by rw [he']; exact he, by rw [hg']; exact hg⟩
          · exact hall a (List.mem_cons_of_mem _ hmem) ⟨he, hg⟩
  · intro a rest a' hin hok
    simp only [layer_args_validate]
    rw [hin]
    simp only [layer_args_validate_loop_spec]
    rw [if_pos hok]

/-- Witness for C9 at a concrete two-node chain: a connected node with
`n_max = 2 < n_init = 3` validates successfully with `n_max` raised
to 3. -/
theorem C9_validate_n_max_witness :
    layer_args_validate [⟨LayerType.CONNECTED, 1, 3, 2, 0, 0, 0, 0, false⟩]
      = some [⟨LayerType.CONNECTED, 1, 3, 3, 0, 0, 0, 0, false⟩] ∧
    (∀ a ∈ [(⟨LayerType.CONNECTED, 1, 3, 3, 0, 0, 0, 0, false⟩ : ArgsLayer)],
      a.n_init ≤ a.n_max) := by
  have hrun : layer_args_validate
      [⟨LayerType.CONNECTED, 1, 3, 2, 0, 0, 0, 0, false⟩]
      = some [⟨LayerType.CONNECTED, 1, 3, 3, 0, 0, 0, 0, false⟩] := by decide
  exact ⟨hrun, C9_validate_n_max.1 _ _ hrun⟩

/-- C10 (implicit): inserting into a non-empty net at any position
`pos ≥ n_layers` is not an error — the cursor walks off the head end
and the position is effectively clamped: the layer is appended at the
head (output-facing end), updating `n_outputs` and the cached output
pointer to the new layer's; `neural_push` appends exactly this way by
calling `neural_insert` with `pos = n_layers`. -/
theorem C10_insert_clamps (net : Net) (l : Layer) (pos : Nat)
    (hne : net.layers ≠ []) (hpos : net.layers.length ≤ pos) :
    neural_insert net l pos = some ⟨net.layers ++ [l], net.n_layers + 1,
      net.n_inputs, l.n_outputs, some l.output⟩ ∧
    neural_push net l = neural_insert net l net.n_layers := by
  constructor
  · unfold neural_insert
    rw [if_neg hne, if_pos hpos]
  · rfl

/-- Witness for C10: inserting far past the end of a one-layer net
appends at the head. -/
theorem C10_insert_clamps_witness :
    neural_insert ⟨[⟨1, 5, 100⟩], 1, 1, 5, some 100⟩ ⟨2, 7, 200⟩ 9
      = some ⟨[⟨1, 5, 100⟩, ⟨2, 7, 200⟩], 2, 1, 7, some 200⟩ ∧
    neural_push ⟨[⟨1, 5, 100⟩], 1, 1, 5, some 100⟩ ⟨2, 7, 200⟩
      = neural_insert ⟨[⟨1, 5, 100⟩], 1, 1, 5, some 100⟩ ⟨2, 7, 200⟩ 1 := by
  obtain ⟨ha, hb⟩ := C10_insert_clamps ⟨[⟨1, 5, 100⟩], 1, 1, 5, some 100⟩
    ⟨2, 7, 200⟩ 9 (by decide) (by decide)
  exact ⟨ha, hb⟩

end XCSFVerif
